import Mathlib

/-!
Verification of the manifest instance-resolution engine
(`loadManifest` / `resolveInstances` in `src/lib/manifest-loader.js`).

The JavaScript runtime values occurring in a parsed manifest are modelled by
`JVal`. Property access on `null`/`undefined` and calling `.map` on a value
that is not an array raise `TypeError` in JavaScript; these are the only
exception sources inside resolution, so the embedded functions return
`Except JsErr _` and signal `JsErr.typeError` exactly where the source would
throw.
-/

/-- A JavaScript runtime value, as produced by `JSON.parse` (plus `undefined`,
which arises from absent-property access). -/
inductive JVal where
  | null
  | undefined
  | bool (b : Bool)
  | num (n : Int)
  | str (s : String)
  | arr (elems : List JVal)
  | obj (fields : List (String × JVal))

/-- JavaScript truthiness. `null`, `undefined`, `false`, `0` and `""` are
falsy; every array and object (including empty ones) is truthy. -/
def truthy : JVal → Bool
  | .null => false
  | .undefined => false
  | .bool b => b
  | .num n => n != 0
  | .str s => s != ""
  | .arr _ => true
  | .obj _ => true

/-- The only exception kind resolution can raise: a `TypeError` from property
access on `null`/`undefined` or from calling `.map` on a non-array. -/
inductive JsErr where
  | typeError
deriving DecidableEq

/-- First-match field lookup in an object's field list (JS objects have unique
keys, so first-match agrees with JS semantics). -/
def getField : List (String × JVal) → String → JVal
  | [], _ => .undefined
  | (k, v) :: rest, key => if k = key then v else getField rest key

/-- Property access `v.key` on a value that is not `null`/`undefined`:
objects yield the field (or `undefined`); numbers, strings, booleans and
arrays yield `undefined` for the manifest property names used here. -/
def getProp (v : JVal) (key : String) : JVal :=
  match v with
  | .obj fs => getField fs key
  | _ => .undefined

/-- Property access `v.key` in full: on `null`/`undefined` it raises
`TypeError`, as in JavaScript. -/
def propE (v : JVal) (key : String) : Except JsErr JVal :=
  match v with
  | .null => .error .typeError
  | .undefined => .error .typeError
  | _ => .ok (getProp v key)

/-- `{source, destination}` — one concrete copy descriptor
(`ResourceRef`). The source code stores whatever values the declaration
supplied, so both fields are raw values. -/
structure Ref where
  source : JVal
  destination : JVal

/-- A resolved datagen assignment `{source, destination}`. -/
structure Datagen where
  source : JVal
  destination : JVal

/-- One resolved instance: `{ apps: [], files: [], datagen: null }` at
creation, then mutated by each matching pattern. -/
structure Inst where
  apps : List Ref
  files : List Ref
  datagen : Option Datagen

def emptyInst : Inst := ⟨[], [], none⟩

/-- `src.map(x => ({source: x, destination}))`. -/
def refsOf (src : List JVal) (dest : JVal) : List Ref :=
  src.map fun s => ⟨s, dest⟩

/-- One entry of an array-of-objects (co-located-role) apps declaration:
```
if (appGroup.source) {
  const destination = appGroup.destination || "apps";
  existing.apps.push(...appGroup.source.map(app => ({source: app, destination})));
}
```
`appGroup.source` throws on a `null`/`undefined` group; `.map` throws when
`source` is truthy but not an array. -/
def appGroupRefs (g : JVal) : Except JsErr (List Ref) := do
  let src ← propE g "source"
  if truthy src then
    let dest := if truthy (getProp g "destination") then getProp g "destination" else .str "apps"
    match src with
    | .arr xs => .ok (refsOf xs dest)
    | _ => .error .typeError
  else
    .ok []

/-- Normalization of an `apps` declaration (identical blocks at
`manifest-loader.js:98-134`, `174-205` and `248-285`):
an array whose first element is a string is the legacy list (every element is
mapped); any other array is treated as co-located-role objects; a truthy
non-array with a truthy `source` is the single-object form; everything else
contributes nothing. -/
def normApps (apps : JVal) : Except JsErr (List Ref) :=
  if truthy apps then
    match apps with
    | .arr [] => .ok []
    | .arr (e :: rest) =>
      match e with
      | .str _ => .ok (refsOf (e :: rest) (.str "apps"))
      | _ => (e :: rest).foldlM (fun acc g => do
          let rs ← appGroupRefs g
          pure (acc ++ rs)) []
    | other =>
      let src := getProp other "source"
      if truthy src then
        let dest := if truthy (getProp other "destination") then getProp other "destination" else .str "apps"
        match src with
        | .arr xs => .ok (refsOf xs dest)
        | _ => .error .typeError
      else .ok []
  else .ok []

/-- Normalization of a `files` declaration (`manifest-loader.js:138-150`,
`209-223`, `288-303`): array source yields one ref per element, string source
yields one ref, anything else nothing; destination defaults to
`"system/local"`. Never throws. -/
def normFiles (files : JVal) : List Ref :=
  if truthy files then
    let dest := if truthy (getProp files "destination") then getProp files "destination" else .str "system/local"
    match getProp files "source" with
    | .arr xs => refsOf xs dest
    | .str s => [⟨.str s, dest⟩]
    | _ => []
  else []

/-- Normalization of a datagen declaration (`manifest-loader.js:152-163`,
`225-238`, `305-316`): `some d` means the slot is overwritten with `d`,
`none` means the slot is left unchanged. An array (of anything) overwrites
with `destination: null`; a non-array truthy value with truthy `source`
overwrites with its `source`/`destination` fields. Never throws. -/
def normDatagen (cfg : JVal) : Option Datagen :=
  if truthy cfg then
    match cfg with
    | .arr xs => some ⟨.arr xs, .null⟩
    | other =>
      let src := getProp other "source"
      if truthy src then some ⟨src, getProp other "destination"⟩ else none
  else none

/-- Everything one pattern's configuration contributes to an instance it
matches: apps/files to append and an optional datagen overwrite. -/
structure Contrib where
  apps : List Ref
  files : List Ref
  dg : Option Datagen

/-- Computes one configuration's contribution, with the source's evaluation
order (`config.apps` first — which throws when `config` is `null`/`undefined`
— then `config.files`, then `config.datagens || config.datagen`). -/
def contribution (config : JVal) : Except JsErr Contrib := do
  let appsVal ← propE config "apps"
  let apps ← normApps appsVal
  let filesVal ← propE config "files"
  let dgsVal ← propE config "datagens"
  let dgVal ← propE config "datagen"
  pure ⟨apps, normFiles filesVal, normDatagen (if truthy dgsVal then dgsVal else dgVal)⟩

/-- Applying a contribution to an instance: apps/files are appended
(push), the datagen slot is overwritten when the contribution carries one. -/
def applyContrib (inst : Inst) (c : Contrib) : Inst :=
  ⟨inst.apps ++ c.apps, inst.files ++ c.files,
   match c.dg with
   | some d => some d
   | none => inst.datagen⟩

/-- The per-pattern mutation of one instance's configuration. -/
def applyConfig (config : JVal) (inst : Inst) : Except JsErr Inst :=
  (contribution config).map (applyContrib inst)

/-- The `resolved` map: a JS `Map`, i.e. an insertion-ordered association
list with unique keys. -/
abbrev ResolvedMap := List (String × Inst)

def findInst : ResolvedMap → String → Option Inst
  | [], _ => none
  | (k', v) :: rest, k => if k' = k then some v else findInst rest k

/-- `Map.set`: replace in place when the key exists, append otherwise. -/
def setInst : ResolvedMap → String → Inst → ResolvedMap
  | [], k, v => [(k, v)]
  | (k', v') :: rest, k, v => if k' = k then (k, v) :: rest else (k', v') :: setInst rest k v

/-- Lazily create the instance, then apply the configuration:
```
if (!resolved.has(name)) resolved.set(name, {apps: [], files: [], datagen: null});
const existing = resolved.get(name);
...
```
-/
def updateKey (m : ResolvedMap) (k : String) (config : JVal) : Except JsErr ResolvedMap := do
  let inst := (findInst m k).getD emptyInst
  let inst' ← applyConfig config inst
  pure (setInst m k inst')

/-- `for (let i = 1; i <= count; i++)` — the indices `1..c` (empty when
`c ≤ 0`, matching the JS loop). -/
def range1 (c : Int) : List Nat :=
  (List.range c.toNat).map (· + 1)

/-- `pattern.replace("*", "")` — removes the first `*` only. -/
def dropFirstStar : List Char → List Char
  | [] => []
  | c :: cs => if c = '*' then cs else c :: dropFirstStar cs

def removeFirstStar (s : String) : String :=
  ⟨dropFirstStar s.data⟩

/-- `pattern.includes("*")`. -/
def hasStar (s : String) : Bool :=
  s.data.contains '*'

/-- One first-pass step of `resolveInstances` (`manifest-loader.js:76-240`):
skip the global wildcard; expand a starred pattern through the role count
(`if (count)` — absent or zero suppresses expansion); otherwise treat the
pattern as an exact identity. -/
def pass1Step (counts : String → Option Int) (m : ResolvedMap) (pattern : String)
    (config : JVal) : Except JsErr ResolvedMap :=
  if pattern = "*" then .ok m
  else if hasStar pattern then
    let role := removeFirstStar pattern
    match counts role with
    | some c =>
      if c = 0 then .ok m
      else (range1 c).foldlM (fun m i => updateKey m (role ++ Nat.repr i) config) m
    | none => .ok m
  else updateKey m pattern config

/-- Object property lookup in the pattern map (`instances["*"]`). -/
def jlookup : List (String × JVal) → String → JVal
  | [], _ => .undefined
  | (k', v) :: rest, k => if k' = k then v else jlookup rest k

/-- `resolveInstances(instances, spec)` (`manifest-loader.js:70-321`).
`instances` is the pattern map in declaration order; `counts` is
`spec?.instances || {}` viewed as a partial role-count mapping. Pass 1
processes every non-global pattern in order; pass 2 applies the global
wildcard's configuration to every already-created instance (it never creates
one). -/
def resolveInstances (instances : List (String × JVal)) (counts : String → Option Int) :
    Except JsErr ResolvedMap := do
  let m ← instances.foldlM (fun m e => pass1Step counts m e.1 e.2) []
  let g := jlookup instances "*"
  if truthy g then
    m.mapM fun e => do
      let inst' ← applyConfig g e.2
      pure (e.1, inst')
  else pure m

/-! ### The manifest gateway (`loadManifest`, `manifest-loader.js:11-64`) -/

/-- Number of `"` characters in a prefix of a line. -/
def countQuotes (cs : List Char) : Nat :=
  (cs.filter (· = '"')).length

/-- `line.indexOf("//")` — position of the first two consecutive slashes. -/
def idxOfSlashes : List Char → Option Nat
  | '/' :: '/' :: _ => some 0
  | _ :: rest => (idxOfSlashes rest).map (· + 1)
  | [] => none

/-- Single-line comment removal for one line: drop from the first `//` on,
but only when an even number of quotes precedes it (a heuristic for "not
inside a string"). -/
def stripCommentLine (line : List Char) : List Char :=
  match idxOfSlashes line with
  | none => line
  | some i =>
    let beforeComment := line.take i
    if countQuotes beforeComment % 2 = 0 then beforeComment else line

/-- `content.split("\n")` at the character level. -/
def splitNl : List Char → List (List Char)
  | [] => [[]]
  | c :: rest =>
    match splitNl rest with
    | [] => [[c]]
    | l :: ls => if c = '\n' then [] :: l :: ls else (c :: l) :: ls

/-- `lines.join("\n")` at the character level. -/
def joinNl : List (List Char) → List Char
  | [] => []
  | [l] => l
  | l :: ls => l ++ '\n' :: joinNl ls

/-- `content.split("\n").map(stripCommentLine).join("\n")`. -/
def stripComments (content : String) : String :=
  ⟨joinNl ((splitNl content.data).map stripCommentLine)⟩

/-- Attempts to match the regex tail `\s*[}\]]` at the head of `cs`,
returning the whitespace run, the bracket and the remainder. The JavaScript
`\s` class is modelled by `Char.isWhitespace` (space, tab, CR, LF) — the
whitespace that occurs in a JSON document. -/
def matchWsBracket (cs : List Char) : Option (List Char × Char × List Char) :=
  match cs.dropWhile (fun c => c.isWhitespace) with
  | c :: rest =>
    if c = '}' ∨ c = ']' then some (cs.takeWhile (fun c => c.isWhitespace), c, rest) else none
  | [] => none

theorem dropWhile_length_le (p : Char → Bool) (cs : List Char) :
    (cs.dropWhile p).length ≤ cs.length := by
  induction cs with
  | nil => simp
  | cons c rest ih =>
    simp only [List.dropWhile]
    cases p c with
    | true => exact Nat.le_succ_of_le ih
    | false => simp

theorem matchWsBracket_length {cs ws : List Char} {b : Char} {rest' : List Char}
    (h : matchWsBracket cs = some (ws, b, rest')) : rest'.length < cs.length := by
  unfold matchWsBracket at h
  rcases hdw : cs.dropWhile (fun c => c.isWhitespace) with _ | ⟨c, rest⟩
  · rw [hdw] at h; exact absurd h (by simp)
  · rw [hdw] at h
    by_cases hb : c = '}' ∨ c = ']'
    · simp only [hb, if_true, Option.some.injEq] at h
      obtain ⟨-, -, rfl⟩ := h
      have := dropWhile_length_le (fun c => c.isWhitespace) cs
      rw [hdw] at this
      simp only [List.length_cons] at this
      omega
    · simp [hb] at h

/-- One left-to-right pass of `content.replace(/,(\s*[}\]])/g, "$1")`:
each comma directly followed by whitespace and a closing bracket is removed,
and scanning resumes after the bracket. Structural recursion on a fuel that
each step strictly consumes; `stripCommasAux` supplies a provably sufficient
fuel (`stripCommasFuel_fuel_irrelevant`). -/
def stripCommasFuel : Nat → List Char → List Char
  | 0, cs => cs
  | fuel + 1, cs =>
    match cs with
    | [] => []
    | c :: rest =>
      if c = ',' then
        match matchWsBracket rest with
        | some (ws, b, rest') => ws ++ b :: stripCommasFuel fuel rest'
        | none => c :: stripCommasFuel fuel rest
      else c :: stripCommasFuel fuel rest

def stripCommasAux (cs : List Char) : List Char :=
  stripCommasFuel cs.length cs

/-- Any fuel of at least the list's length computes the same result, so the
fuel is an artifact of structural recursion, not part of the semantics. -/
theorem stripCommasFuel_nil (fuel : Nat) : stripCommasFuel fuel [] = [] := by
  cases fuel <;> rfl

theorem stripCommasFuel_fuel_irrelevant :
    ∀ (fuel₁ fuel₂ : Nat) (cs : List Char), cs.length ≤ fuel₁ → cs.length ≤ fuel₂ →
      stripCommasFuel fuel₁ cs = stripCommasFuel fuel₂ cs := by
  intro fuel₁
  induction fuel₁ using Nat.strong_induction_on with
  | _ fuel₁ ih =>
    intro fuel₂ cs h₁ h₂
    cases cs with
    | nil => rw [stripCommasFuel_nil, stripCommasFuel_nil]
    | cons c rest =>
      cases fuel₁ with
      | zero => simp at h₁
      | succ fuel₁ =>
        cases fuel₂ with
        | zero => simp at h₂
        | succ fuel₂ =>
          simp only [List.length_cons, Nat.succ_le_succ_iff] at h₁ h₂
          simp only [stripCommasFuel]
          by_cases hc : c = ','
          · simp only [hc, if_true]
            rcases hm : matchWsBracket rest with _ | ⟨ws, b, rest'⟩
            · dsimp only
              rw [ih fuel₁ (Nat.lt_succ_self _) fuel₂ rest h₁ h₂]
            · have hlt := matchWsBracket_length hm
              dsimp only
              rw [ih fuel₁ (Nat.lt_succ_self _) fuel₂ rest' (by omega) (by omega)]
          · simp only [hc, if_false]
            rw [ih fuel₁ (Nat.lt_succ_self _) fuel₂ rest h₁ h₂]

/-- `content.replace(/,(\s*[}\]])/g, "$1")`. -/
def stripTrailingCommas (s : String) : String :=
  ⟨stripCommasAux s.data⟩

/-- The comment-stripping and trailing-comma clean-up applied to the raw
document before parsing. -/
def cleanse (content : String) : String :=
  stripTrailingCommas (stripComments content)

/-- The error kinds observable from `loadManifest`: the not-found error, the
rethrown `Invalid JSON` error for a `SyntaxError` from `JSON.parse`, the
`missing required "instances"` error, and a raw `TypeError` (which escapes
when `manifest.instances` is read off a `null` document). -/
inductive LoadErr where
  | notFound
  | invalidJson
  | missingInstances
  | jsTypeError
deriving DecidableEq

/-- `loadManifest` (`manifest-loader.js:11-64`), embedded over the two
external effects: `file` is the content of `manifest.json` when it exists
(`fs.existsSync`/`readFileSync`), and `parse` abstracts `JSON.parse` on the
cleansed text (`none` models a thrown `SyntaxError`). A parsed `null`
document makes the validation line `if (!manifest.instances)` itself throw a
`TypeError`, which the `catch` re-raises unchanged; otherwise a falsy
`instances` property triggers the missing-field error and any other document
is returned as-is. -/
def loadManifest (file : Option String) (parse : String → Option JVal) :
    Except LoadErr JVal :=
  match file with
  | none => .error .notFound
  | some content =>
    match parse (cleanse content) with
    | none => .error .invalidJson
    | some manifest =>
      match manifest with
      | .null => .error .jsTypeError
      | .undefined => .error .jsTypeError
      | m => if truthy (getProp m "instances") then .ok m else .error .missingInstances

/-! ### Injectivity of decimal numbering

The identities `"<role>1" .. "<role>n"` generated by a role wildcard are
pairwise distinct because `Nat.repr` is injective; this is proved here via a
decimal decoding function. -/

def digitVal (c : Char) : Nat := c.toNat - '0'.toNat

def decValue (l : List Char) : Nat := l.foldl (fun a c => 10 * a + digitVal c) 0

theorem digitVal_digitChar {d : Nat} (h : d < 10) : digitVal (Nat.digitChar d) = d := by
  interval_cases d <;> rfl

theorem decValue_append (l : List Char) (c : Char) :
    decValue (l ++ [c]) = 10 * decValue l + digitVal c := by
  simp [decValue, List.foldl_append]

theorem toDigitsCore_acc (fuel : Nat) :
    ∀ (n : Nat) (acc : List Char),
      Nat.toDigitsCore 10 fuel n acc = Nat.toDigitsCore 10 fuel n [] ++ acc := by
  induction fuel with
  | zero => intro n acc; rfl
  | succ fuel ih =>
    intro n acc
    simp only [Nat.toDigitsCore]
    by_cases h : n / 10 = 0
    · simp [h]
    · simp only [h, if_false]
      rw [ih (n / 10) (Nat.digitChar (n % 10) :: acc), ih (n / 10) [Nat.digitChar (n % 10)]]
      simp

theorem decValue_toDigitsCore (fuel : Nat) :
    ∀ n : Nat, 0 < fuel → n < 10 ^ fuel →
      decValue (Nat.toDigitsCore 10 fuel n []) = n := by
  induction fuel with
  | zero => intro n hpos; omega
  | succ fuel ih =>
    intro n _ hlt
    simp only [Nat.toDigitsCore]
    by_cases h : n / 10 = 0
    · simp only [h, if_true]
      have hn : n < 10 := by omega
      have : decValue [Nat.digitChar (n % 10)] = n % 10 := by
        simpa [decValue] using digitVal_digitChar (Nat.mod_lt n (by omega))
      rw [this, Nat.mod_eq_of_lt hn]
    · simp only [h, if_false]
      rw [toDigitsCore_acc, decValue_append]
      have hfpos : 0 < fuel := by
        rcases Nat.eq_zero_or_pos fuel with h0 | h0
        · subst h0; simp at hlt; omega
        · exact h0
      have hdivlt : n / 10 < 10 ^ fuel := by
        have : n < 10 * 10 ^ fuel := by
          calc n < 10 ^ (fuel + 1) := hlt
          _ = 10 * 10 ^ fuel := by ring
        exact Nat.div_lt_of_lt_mul this
      rw [ih (n / 10) hfpos hdivlt, digitVal_digitChar (Nat.mod_lt n (by omega))]
      omega

theorem natRepr_injective : Function.Injective Nat.repr := by
  intro a b h
  have ha : a < 10 ^ (a + 1) :=
    lt_of_lt_of_le (Nat.lt_pow_self (by omega) a) (Nat.pow_le_pow_right (by omega) (Nat.le_succ a))
  have hb : b < 10 ^ (b + 1) :=
    lt_of_lt_of_le (Nat.lt_pow_self (by omega) b) (Nat.pow_le_pow_right (by omega) (Nat.le_succ b))
  have hdig : Nat.toDigits 10 a = Nat.toDigits 10 b := by
    have h' := congrArg String.data h
    simpa [Nat.repr, List.asString] using h'
  calc a = decValue (Nat.toDigitsCore 10 (a + 1) a []) :=
        (decValue_toDigitsCore (a + 1) a (Nat.succ_pos a) ha).symm
    _ = decValue (Nat.toDigitsCore 10 (b + 1) b []) := by
        have := hdig; simp only [Nat.toDigits] at this; rw [this]
    _ = b := decValue_toDigitsCore (b + 1) b (Nat.succ_pos b) hb

theorem appendRepr_injective (role : String) :
    Function.Injective (fun i : Nat => role ++ Nat.repr i) := by
  intro i j h
  have h' : role ++ Nat.repr i = role ++ Nat.repr j := h
  apply natRepr_injective
  have : (role ++ Nat.repr i).data = (role ++ Nat.repr j).data := by rw [h']
  simp only [String.data_append] at this
  have := List.append_cancel_left this
  exact String.ext this

/-! ### Spec-side description of one resolution step -/

/-- The identities one non-global pattern touches, in touch order: a role
wildcard touches `role ++ i` for `i = 1..count`, an exact pattern touches
itself, the global wildcard (and a suppressed wildcard) touches nothing. -/
def stepNames (counts : String → Option Int) (pattern : String) : List String :=
  if pattern = "*" then []
  else if hasStar pattern then
    match counts (removeFirstStar pattern) with
    | some c => (range1 c).map (fun i => removeFirstStar pattern ++ Nat.repr i)
    | none => []
  else [pattern]

/-- Apply one contribution to each named identity in order, creating absent
instances as empty. -/
def touchAll (m : ResolvedMap) (ns : List String) (c : Contrib) : ResolvedMap :=
  ns.foldl (fun m k => setInst m k (applyContrib ((findInst m k).getD emptyInst) c)) m

theorem findInst_setInst (m : ResolvedMap) (k k' : String) (v : Inst) :
    findInst (setInst m k v) k' = if k' = k then some v else findInst m k' := by
  induction m with
  | nil =>
    by_cases h : k' = k
    · simp [setInst, findInst, h]
    · have h2 : ¬k = k' := fun h' => h h'.symm
      simp [setInst, findInst, h, h2]
  | cons p rest ih =>
    obtain ⟨pk, pv⟩ := p
    by_cases hp : pk = k
    · by_cases h : k' = k
      · simp [setInst, findInst, hp, h]
      · have h2 : ¬k = k' := fun h' => h h'.symm
        have h3 : ¬pk = k' := fun h' => h (h'.symm.trans hp)
        simp [setInst, findInst, hp, h, h2, h3]
    · by_cases h : k' = k
      · subst h
        simp [setInst, findInst, hp, ih]
      · simp [setInst, findInst, hp, h, ih]

theorem mem_keys_iff_findInst (m : ResolvedMap) (k : String) :
    k ∈ m.map Prod.fst ↔ (findInst m k).isSome := by
  induction m with
  | nil => simp [findInst]
  | cons p rest ih =>
    obtain ⟨pk, pv⟩ := p
    simp only [List.map_cons, List.mem_cons, findInst]
    by_cases h : pk = k
    · simp [h]
    · simp only [h, if_false]
      constructor
      · rintro (h' | h')
        · exact absurd h'.symm h
        · exact ih.mp h'
      · intro h'
        exact Or.inr (ih.mpr h')

theorem keys_setInst_absent {m : ResolvedMap} {k : String} (h : findInst m k = none) (v : Inst) :
    (setInst m k v).map Prod.fst = m.map Prod.fst ++ [k] := by
  induction m with
  | nil => rfl
  | cons p rest ih =>
    obtain ⟨pk, pv⟩ := p
    simp only [findInst] at h
    by_cases hp : pk = k
    · simp [hp] at h
    · simp only [hp, if_false] at h
      simp only [setInst, hp, if_false, List.map_cons, List.cons_append, List.cons.injEq,
        true_and]
      exact ih h

theorem keys_setInst_present {m : ResolvedMap} {k : String} {w : Inst}
    (h : findInst m k = some w) (v : Inst) :
    (setInst m k v).map Prod.fst = m.map Prod.fst := by
  induction m with
  | nil => simp [findInst] at h
  | cons p rest ih =>
    obtain ⟨pk, pv⟩ := p
    simp only [findInst] at h
    by_cases hp : pk = k
    · simp [setInst, hp]
    · simp only [hp, if_false] at h
      simp only [setInst, hp, if_false, List.map_cons, List.cons.injEq, true_and]
      exact ih h

theorem findInst_touchAll {ns : List String} (hnd : ns.Nodup) :
    ∀ (m : ResolvedMap) (c : Contrib) (k : String),
      findInst (touchAll m ns c) k =
        if k ∈ ns then some (applyContrib ((findInst m k).getD emptyInst) c)
        else findInst m k := by
  induction ns with
  | nil => intro m c k; simp [touchAll]
  | cons n ns ih =>
    intro m c k
    have hnd' : ns.Nodup := hnd.of_cons
    have hnn : n ∉ ns := (List.nodup_cons.mp hnd).1
    have step : touchAll m (n :: ns) c =
        touchAll (setInst m n (applyContrib ((findInst m n).getD emptyInst) c)) ns c := rfl
    rw [step, ih hnd']
    by_cases hk : k ∈ ns
    · have hkn : ¬k = n := fun h => hnn (h ▸ hk)
      simp only [hk, if_true, List.mem_cons, hk, or_true, if_true]
      rw [findInst_setInst, if_neg hkn]
    · by_cases hkn : k = n
      · subst hkn
        simp only [hk, if_false, List.mem_cons, true_or, if_true]
        rw [findInst_setInst, if_pos rfl]
      · simp only [hk, if_false, List.mem_cons, hkn, false_or, if_neg hk]
        rw [findInst_setInst, if_neg hkn]

theorem keys_touchAll {ns : List String} (hnd : ns.Nodup) :
    ∀ (m : ResolvedMap) (c : Contrib),
      (∀ k ∈ ns, findInst m k = none) →
      (touchAll m ns c).map Prod.fst = m.map Prod.fst ++ ns := by
  induction ns with
  | nil => intro m c _; simp [touchAll]
  | cons n ns ih =>
    intro m c habs
    have hnd' : ns.Nodup := hnd.of_cons
    have hnn : n ∉ ns := (List.nodup_cons.mp hnd).1
    have step : touchAll m (n :: ns) c =
        touchAll (setInst m n (applyContrib ((findInst m n).getD emptyInst) c)) ns c := rfl
    rw [step, ih hnd']
    · rw [keys_setInst_absent (habs n (List.mem_cons_self n ns))]
      simp
    · intro k hk
      have hkn : ¬k = n := fun h => hnn (h ▸ hk)
      rw [findInst_setInst, if_neg hkn]
      exact habs k (List.mem_cons_of_mem n hk)

theorem mem_keys_touchAll (ns : List String) :
    ∀ (m : ResolvedMap) (c : Contrib) (k : String),
      k ∈ (touchAll m ns c).map Prod.fst ↔ k ∈ m.map Prod.fst ∨ k ∈ ns := by
  induction ns with
  | nil => intro m c k; simp [touchAll]
  | cons n ns ih =>
    intro m c k
    have step : touchAll m (n :: ns) c =
        touchAll (setInst m n (applyContrib ((findInst m n).getD emptyInst) c)) ns c := rfl
    rw [step, ih]
    have hset : k ∈ (setInst m n (applyContrib ((findInst m n).getD emptyInst) c)).map Prod.fst ↔
        k ∈ m.map Prod.fst ∨ k = n := by
      rw [mem_keys_iff_findInst, findInst_setInst, mem_keys_iff_findInst]
      by_cases hkn : k = n
      · simp [hkn]
      · simp [hkn]
    rw [hset]
    simp only [List.mem_cons]
    tauto

theorem range1_nodup (c : Int) : (range1 c).Nodup :=
  (List.nodup_range c.toNat).map (fun _ _ h => by omega)

theorem stepNames_nodup (counts : String → Option Int) (pattern : String) :
    (stepNames counts pattern).Nodup := by
  unfold stepNames
  by_cases h1 : pattern = "*"
  · simp [h1]
  · simp only [h1, if_false]
    by_cases h2 : hasStar pattern
    · simp only [h2, if_true]
      cases counts (removeFirstStar pattern) with
      | none => exact List.nodup_nil
      | some c =>
        exact (range1_nodup c).map (appendRepr_injective (removeFirstStar pattern))
    · simp [h2]

theorem updateKey_eq (m : ResolvedMap) (k : String) (config : JVal) :
    updateKey m k config =
      (contribution config).map
        (fun c => setInst m k (applyContrib ((findInst m k).getD emptyInst) c)) := by
  unfold updateKey applyConfig
  cases contribution config <;> rfl

theorem touchAll_cons (m : ResolvedMap) (n : String) (ns : List String) (c : Contrib) :
    touchAll m (n :: ns) c =
      touchAll (setInst m n (applyContrib ((findInst m n).getD emptyInst) c)) ns c := rfl

theorem foldUpdate_ok {config : JVal} {c : Contrib} (h : contribution config = .ok c)
    {α : Type} (l : List α) (f : α → String) :
    ∀ m : ResolvedMap,
      l.foldlM (fun m i => updateKey m (f i) config) m = .ok (touchAll m (l.map f) c) := by
  induction l with
  | nil => intro m; rfl
  | cons x l ih =>
    intro m
    rw [List.foldlM_cons, updateKey_eq, h]
    show Except.bind (Except.ok _) _ = _
    rw [Except.bind]
    rw [ih, List.map_cons, touchAll_cons]

theorem foldUpdate_err {config : JVal} {er : JsErr} (h : contribution config = .error er)
    {α : Type} (x : α) (l : List α) (f : α → String) (m : ResolvedMap) :
    (x :: l).foldlM (fun m i => updateKey m (f i) config) m = .error er := by
  rw [List.foldlM_cons, updateKey_eq, h]
  rfl

theorem pass1Step_ok_of_contrib {config : JVal} {c : Contrib} (h : contribution config = .ok c)
    (counts : String → Option Int) (m : ResolvedMap) (pattern : String) :
    pass1Step counts m pattern config = .ok (touchAll m (stepNames counts pattern) c) := by
  unfold pass1Step stepNames
  by_cases h1 : pattern = "*"
  · simp [h1, touchAll]
  · simp only [h1, if_false]
    by_cases h2 : hasStar pattern
    · simp only [h2, if_true]
      cases hc : counts (removeFirstStar pattern) with
      | none => simp [touchAll]
      | some c0 =>
        by_cases hc0 : c0 = 0
        · subst hc0
          simp [range1, touchAll]
        · simp only [hc0, if_false]
          exact foldUpdate_ok h (range1 c0) _ m
    · simp only [h2, if_false, Bool.false_eq_true]
      rw [updateKey_eq, h]
      rfl

theorem pass1Step_ok_cases {counts : String → Option Int} {m : ResolvedMap}
    {pattern : String} {config : JVal} {m' : ResolvedMap}
    (h : pass1Step counts m pattern config = .ok m') :
    (stepNames counts pattern = [] ∧ m' = m) ∨
    (∃ c, contribution config = .ok c ∧ m' = touchAll m (stepNames counts pattern) c) := by
  cases hc : contribution config with
  | ok c =>
    right
    refine ⟨c, rfl, ?_⟩
    rw [pass1Step_ok_of_contrib hc counts m pattern] at h
    injection h with h
    exact h.symm
  | error er =>
    left
    unfold pass1Step at h
    unfold stepNames
    by_cases h1 : pattern = "*"
    · simp only [h1, if_true] at h ⊢
      injection h with h
      exact ⟨trivial, h.symm⟩
    · simp only [h1, if_false] at h ⊢
      by_cases h2 : hasStar pattern
      · simp only [h2, if_true] at h ⊢
        cases hcnt : counts (removeFirstStar pattern) with
        | none =>
          rw [hcnt] at h
          injection h with h
          exact ⟨rfl, h.symm⟩
        | some c0 =>
          rw [hcnt] at h
          by_cases hc0 : c0 = 0
          · subst hc0
            simp only [if_true] at h
            injection h with h
            exact ⟨by simp [range1], h.symm⟩
          · simp only [hc0, if_false] at h
            cases hr : range1 c0 with
            | nil =>
              rw [hr] at h
              injection h with h
              exact ⟨by simp [hr], h.symm⟩
            | cons y l =>
              rw [hr, foldUpdate_err hc y l _ m] at h
              exact absurd h (by simp)
      · simp only [h2, if_false, Bool.false_eq_true] at h ⊢
        rw [updateKey_eq, hc] at h
        exact absurd h (by simp [Except.map])

/-- The ordered list of contributions the non-global patterns of `l` make to
identity `k`: one entry per pattern of `l` that touches `k` and normalizes
successfully. -/
def matchContribs (counts : String → Option Int) (l : List (String × JVal)) (k : String) :
    List Contrib :=
  l.filterMap (fun e => if k ∈ stepNames counts e.1 then (contribution e.2).toOption else none)

/-- Fold a contribution list over an optional instance, creating the empty
instance on first touch. -/
def applyContribsOpt (o : Option Inst) (cs : List Contrib) : Option Inst :=
  cs.foldl (fun o c => some (applyContrib (o.getD emptyInst) c)) o

theorem applyContribsOpt_cons (o : Option Inst) (c : Contrib) (cs : List Contrib) :
    applyContribsOpt o (c :: cs) =
      applyContribsOpt (some (applyContrib (o.getD emptyInst) c)) cs := rfl

/-- The first pass of `resolveInstances` as a fold. -/
def pass1 (counts : String → Option Int) (l : List (String × JVal)) (m₀ : ResolvedMap) :
    Except JsErr ResolvedMap :=
  l.foldlM (fun m e => pass1Step counts m e.1 e.2) m₀

theorem pass1_invariant (counts : String → Option Int) :
    ∀ (l : List (String × JVal)) (m₀ m : ResolvedMap),
      pass1 counts l m₀ = .ok m →
      ∀ k, findInst m k = applyContribsOpt (findInst m₀ k) (matchContribs counts l k) := by
  intro l
  induction l with
  | nil =>
    intro m₀ m h k
    injection h with h
    rw [← h]
    rfl
  | cons e l ih =>
    intro m₀ m h k
    rw [pass1, List.foldlM_cons] at h
    cases hstep : pass1Step counts m₀ e.1 e.2 with
    | error er =>
      rw [hstep] at h
      exact Except.noConfusion h
    | ok m₁ =>
      rw [hstep] at h
      replace h : pass1 counts l m₁ = .ok m := h
      rcases pass1Step_ok_cases hstep with ⟨hempty, rfl⟩ | ⟨c, hc, rfl⟩
      · have hmc : matchContribs counts (e :: l) k = matchContribs counts l k := by
          unfold matchContribs
          rw [List.filterMap_cons]
          rw [hempty]
          simp
        rw [hmc]
        exact ih _ m h k
      · have hfind := ih _ m h k
        rw [findInst_touchAll (stepNames_nodup counts e.1)] at hfind
        by_cases hk : k ∈ stepNames counts e.1
        · rw [if_pos hk] at hfind
          have hmc : matchContribs counts (e :: l) k = c :: matchContribs counts l k := by
            unfold matchContribs
            rw [List.filterMap_cons]
            rw [if_pos hk, hc]
            rfl
          rw [hmc, applyContribsOpt_cons]
          exact hfind
        · rw [if_neg hk] at hfind
          have hmc : matchContribs counts (e :: l) k = matchContribs counts l k := by
            unfold matchContribs
            rw [List.filterMap_cons]
            rw [if_neg hk]
          rw [hmc]
          exact hfind

theorem pass1_keys (counts : String → Option Int) :
    ∀ (l : List (String × JVal)) (m₀ m : ResolvedMap),
      pass1 counts l m₀ = .ok m →
      ∀ k, (k ∈ m.map Prod.fst ↔ k ∈ m₀.map Prod.fst ∨ ∃ e ∈ l, k ∈ stepNames counts e.1) := by
  intro l
  induction l with
  | nil =>
    intro m₀ m h k
    injection h with h
    rw [← h]
    simp
  | cons e l ih =>
    intro m₀ m h k
    rw [pass1, List.foldlM_cons] at h
    cases hstep : pass1Step counts m₀ e.1 e.2 with
    | error er =>
      rw [hstep] at h
      exact Except.noConfusion h
    | ok m₁ =>
      rw [hstep] at h
      replace h : pass1 counts l m₁ = .ok m := h
      rcases pass1Step_ok_cases hstep with ⟨hempty, rfl⟩ | ⟨c, hc, rfl⟩
      · rw [ih _ m h k]
        simp only [List.mem_cons]
        constructor
        · rintro (h' | ⟨e', he', hk'⟩)
          · exact Or.inl h'
          · exact Or.inr ⟨e', Or.inr he', hk'⟩
        · rintro (h' | ⟨e', he' | he', hk'⟩)
          · exact Or.inl h'
          · subst he'
            rw [hempty] at hk'
            simp at hk'
          · exact Or.inr ⟨e', he', hk'⟩
      · rw [ih _ m h k, mem_keys_touchAll]
        simp only [List.mem_cons]
        constructor
        · rintro ((h' | h') | ⟨e', he', hk'⟩)
          · exact Or.inl h'
          · exact Or.inr ⟨e, Or.inl rfl, h'⟩
          · exact Or.inr ⟨e', Or.inr he', hk'⟩
        · rintro (h' | ⟨e', he' | he', hk'⟩)
          · exact Or.inl (Or.inl h')
          · subst he'
            exact Or.inl (Or.inr hk')
          · exact Or.inr ⟨e', he', hk'⟩

theorem exc_bind_ok {α β ε : Type} (a : α) (f : α → Except ε β) :
    (Except.ok a >>= f) = f a := rfl

theorem exc_bind_err {α β ε : Type} (e : ε) (f : α → Except ε β) :
    ((Except.error e : Except ε α) >>= f) = .error e := rfl

theorem exc_pure {α ε : Type} (a : α) : (pure a : Except ε α) = .ok a := rfl

/-- The second pass of `resolveInstances`: apply the global configuration to
every resolved instance in order. -/
def pass2 (g : JVal) (m : ResolvedMap) : Except JsErr ResolvedMap :=
  m.mapM fun e => do
    let inst' ← applyConfig g e.2
    pure (e.1, inst')

theorem resolveInstances_eq (instances : List (String × JVal)) (counts : String → Option Int) :
    resolveInstances instances counts =
      (pass1 counts instances []) >>= (fun m =>
        if truthy (jlookup instances "*") then pass2 (jlookup instances "*") m
        else pure m) := rfl

theorem pass2_ok_of_contrib {g : JVal} {cg : Contrib} (h : contribution g = .ok cg) :
    ∀ m : ResolvedMap, pass2 g m = .ok (m.map fun e => (e.1, applyContrib e.2 cg)) := by
  intro m
  induction m with
  | nil => rfl
  | cons e rest ih =>
    rw [pass2, List.mapM_cons]
    rw [show applyConfig g e.2 = .ok (applyContrib e.2 cg) from by rw [applyConfig, h]; rfl]
    rw [exc_bind_ok, pure_bind]
    show pass2 g rest >>= _ = _
    rw [ih, exc_bind_ok]
    rfl

theorem pass2_ok_cases {g : JVal} {m m' : ResolvedMap} (h : pass2 g m = .ok m') :
    (m = [] ∧ m' = []) ∨
    (∃ cg, contribution g = .ok cg ∧ m' = m.map fun e => (e.1, applyContrib e.2 cg)) := by
  cases hc : contribution g with
  | ok cg =>
    right
    refine ⟨cg, rfl, ?_⟩
    rw [pass2_ok_of_contrib hc] at h
    injection h with h
    exact h.symm
  | error er =>
    left
    cases m with
    | nil =>
      injection h with h
      exact ⟨rfl, h.symm⟩
    | cons e rest =>
      rw [pass2, List.mapM_cons] at h
      rw [show applyConfig g e.2 = .error er from by rw [applyConfig, hc]; rfl] at h
      rw [exc_bind_err] at h
      exact Except.noConfusion h

theorem findInst_applyMap (m : ResolvedMap) (cg : Contrib) (k : String) :
    findInst (m.map fun e => (e.1, applyContrib e.2 cg)) k =
      (findInst m k).map (fun i => applyContrib i cg) := by
  induction m with
  | nil => rfl
  | cons e rest ih =>
    obtain ⟨ek, ev⟩ := e
    simp only [List.map_cons, findInst]
    by_cases h : ek = k
    · simp [h]
    · simp only [h, if_false]
      exact ih

theorem keys_applyMap (m : ResolvedMap) (cg : Contrib) :
    (m.map fun e => (e.1, applyContrib e.2 cg)).map Prod.fst = m.map Prod.fst := by
  induction m with
  | nil => rfl
  | cons e rest ih =>
    simp only [List.map_cons, ih]

theorem resolveInstances_ok_elim {instances : List (String × JVal)}
    {counts : String → Option Int} {m : ResolvedMap}
    (h : resolveInstances instances counts = .ok m) :
    ∃ m₁, pass1 counts instances [] = .ok m₁ ∧
      ((truthy (jlookup instances "*") = false ∧ m = m₁) ∨
       (truthy (jlookup instances "*") = true ∧ pass2 (jlookup instances "*") m₁ = .ok m)) := by
  rw [resolveInstances_eq] at h
  cases hp : pass1 counts instances [] with
  | error er =>
    rw [hp, exc_bind_err] at h
    exact Except.noConfusion h
  | ok m₁ =>
    rw [hp, exc_bind_ok] at h
    refine ⟨m₁, rfl, ?_⟩
    by_cases hg : truthy (jlookup instances "*")
    · right
      refine ⟨hg, ?_⟩
      rwa [if_pos hg] at h
    · left
      rw [Bool.not_eq_true] at hg
      refine ⟨hg, ?_⟩
      rw [hg] at h
      simp only [Bool.false_eq_true, if_false, exc_pure] at h
      injection h with h
      exact h.symm

/-- The (zero- or one-element) contribution the global wildcard makes to
every instance that exists after pass 1. -/
def globalContribs (instances : List (String × JVal)) : List Contrib :=
  if truthy (jlookup instances "*") then (contribution (jlookup instances "*")).toOption.toList
  else []

/-- All contributions to identity `k`, in application order: the matching
non-global patterns in declaration order, then the global wildcard. -/
def allContribs (counts : String → Option Int) (instances : List (String × JVal))
    (k : String) : List Contrib :=
  matchContribs counts instances k ++ globalContribs instances

theorem applyContribsOpt_append (o : Option Inst) (cs cs' : List Contrib) :
    applyContribsOpt o (cs ++ cs') = applyContribsOpt (applyContribsOpt o cs) cs' := by
  simp [applyContribsOpt, List.foldl_append]

/-- Master value theorem: every instance present in the output is exactly the
fold of all its matching contributions (pass-1 matches in declaration order,
then the global wildcard) over the fresh empty instance. -/
theorem resolveInstances_value {instances : List (String × JVal)}
    {counts : String → Option Int} {m : ResolvedMap} {k : String} {inst : Inst}
    (h : resolveInstances instances counts = .ok m)
    (hf : findInst m k = some inst) :
    matchContribs counts instances k ≠ [] ∧
      some inst = applyContribsOpt none (allContribs counts instances k) := by
  obtain ⟨m₁, hp1, hcase⟩ := resolveInstances_ok_elim h
  have hinv := pass1_invariant counts instances [] m₁ hp1 k
  rw [show findInst [] k = none from rfl] at hinv
  rcases hcase with ⟨hg, rfl⟩ | ⟨hg, hp2⟩
  · rw [hf] at hinv
    constructor
    · intro hnil
      rw [hnil] at hinv
      exact Option.noConfusion hinv
    · rw [allContribs, globalContribs, hg]
      simp only [Bool.false_eq_true, if_false, List.append_nil]
      exact hinv
  · rcases pass2_ok_cases hp2 with ⟨rfl, rfl⟩ | ⟨cg, hcg, rfl⟩
    · exact absurd hf (by rw [show findInst [] k = none from rfl]; simp)
    · rw [findInst_applyMap] at hf
      cases hm1 : findInst m₁ k with
      | none =>
        rw [hm1] at hf
        exact Option.noConfusion hf
      | some i1 =>
        rw [hm1] at hf
        injection hf with hf
        rw [hm1] at hinv
        constructor
        · intro hnil
          rw [hnil] at hinv
          exact Option.noConfusion hinv
        · rw [allContribs, globalContribs, hg]
          simp only [if_true, hcg]
          rw [show (Except.ok cg : Except JsErr Contrib).toOption.toList = [cg] from rfl]
          rw [applyContribsOpt_append, ← hinv]
          rw [show applyContribsOpt (some i1) [cg] = some (applyContrib i1 cg) from rfl]
          exact congrArg some hf.symm

/-- Master key theorem: an identity is in the output exactly when some
non-global pattern touches it; the global wildcard never adds identities. -/
theorem resolveInstances_keys {instances : List (String × JVal)}
    {counts : String → Option Int} {m : ResolvedMap}
    (h : resolveInstances instances counts = .ok m) (k : String) :
    k ∈ m.map Prod.fst ↔ ∃ e ∈ instances, k ∈ stepNames counts e.1 := by
  obtain ⟨m₁, hp1, hcase⟩ := resolveInstances_ok_elim h
  have hk := pass1_keys counts instances [] m₁ hp1 k
  simp only [List.map_nil, List.not_mem_nil, false_or] at hk
  rcases hcase with ⟨_, rfl⟩ | ⟨_, hp2⟩
  · exact hk
  · rcases pass2_ok_cases hp2 with ⟨rfl, rfl⟩ | ⟨cg, _, rfl⟩
    · exact hk
    · rw [keys_applyMap]
      exact hk

/-- Fold a contribution list over an existing instance. -/
def applyContribs (i : Inst) (cs : List Contrib) : Inst :=
  cs.foldl applyContrib i

theorem applyContribsOpt_some (i : Inst) (cs : List Contrib) :
    applyContribsOpt (some i) cs = some (applyContribs i cs) := by
  induction cs generalizing i with
  | nil => rfl
  | cons c cs ih =>
    rw [applyContribsOpt_cons]
    exact ih (applyContrib i c)

theorem applyContribs_apps (cs : List Contrib) :
    ∀ i : Inst, (applyContribs i cs).apps = i.apps ++ (cs.map Contrib.apps).flatten := by
  induction cs with
  | nil => intro i; simp [applyContribs]
  | cons c cs ih =>
    intro i
    rw [show applyContribs i (c :: cs) = applyContribs (applyContrib i c) cs from rfl]
    rw [ih (applyContrib i c)]
    simp [applyContrib, List.append_assoc]

theorem applyContribs_files (cs : List Contrib) :
    ∀ i : Inst, (applyContribs i cs).files = i.files ++ (cs.map Contrib.files).flatten := by
  induction cs with
  | nil => intro i; simp [applyContribs]
  | cons c cs ih =>
    intro i
    rw [show applyContribs i (c :: cs) = applyContribs (applyContrib i c) cs from rfl]
    rw [ih (applyContrib i c)]
    simp [applyContrib, List.append_assoc]

/-- Last-write-wins fold of the datagen slot over a contribution list. -/
def dgLast (o : Option Datagen) (cs : List Contrib) : Option Datagen :=
  cs.foldl (fun o c =>
    match c.dg with
    | some d => some d
    | none => o) o

theorem applyContribs_datagen (cs : List Contrib) :
    ∀ i : Inst, (applyContribs i cs).datagen = dgLast i.datagen cs := by
  induction cs with
  | nil => intro i; rfl
  | cons c cs ih =>
    intro i
    rw [show applyContribs i (c :: cs) = applyContribs (applyContrib i c) cs from rfl]
    rw [ih (applyContrib i c)]
    rfl

/-- Unpacking of an instance built from a non-empty contribution list over
the fresh empty instance: its fields are exactly the concatenations /
last-write fold of the contributions. -/
theorem applyContribsOpt_none_spec {cs : List Contrib} {inst : Inst}
    (h : some inst = applyContribsOpt none cs) :
    inst.apps = (cs.map Contrib.apps).flatten ∧
    inst.files = (cs.map Contrib.files).flatten ∧
    inst.datagen = dgLast none cs := by
  cases cs with
  | nil => exact Option.noConfusion h
  | cons c cs =>
    rw [applyContribsOpt_cons] at h
    rw [show (none : Option Inst).getD emptyInst = emptyInst from rfl] at h
    rw [applyContribsOpt_some] at h
    injection h with h
    subst h
    refine ⟨?_, ?_, ?_⟩
    · rw [applyContribs_apps]
      simp [applyContrib, emptyInst]
    · rw [applyContribs_files]
      simp [applyContrib, emptyInst]
    · rw [applyContribs_datagen]
      rw [show dgLast none (c :: cs) = dgLast (dgLast none [c]) cs from rfl]
      have : (applyContrib emptyInst c).datagen = dgLast none [c] := by
        cases hc : c.dg <;> simp [applyContrib, emptyInst, dgLast, hc]
      rw [this]

/-! ### Pattern-string facts -/

theorem star_data : ("*" : String).data = ['*'] := rfl

theorem dropFirstStar_append_star {l : List Char} (h : '*' ∉ l) :
    dropFirstStar (l ++ ['*']) = l := by
  induction l with
  | nil => rfl
  | cons c cs ih =>
    have hc : ¬c = '*' := fun hc => h (hc ▸ List.mem_cons_self c cs)
    simp only [List.cons_append, dropFirstStar, hc, if_false]
    show c :: dropFirstStar (cs ++ ['*']) = c :: cs
    rw [ih (fun hm => h (List.mem_cons_of_mem c hm))]

theorem removeFirstStar_role {role : String} (h : '*' ∉ role.data) :
    removeFirstStar (role ++ "*") = role := by
  apply String.ext
  show dropFirstStar (role ++ "*").data = role.data
  rw [String.data_append, star_data, dropFirstStar_append_star h]

theorem hasStar_iff (s : String) : hasStar s = true ↔ '*' ∈ s.data := by
  simp [hasStar]

theorem hasStar_append_star (role : String) : hasStar (role ++ "*") = true := by
  rw [hasStar_iff, String.data_append, star_data]
  simp

theorem append_star_ne_star {role : String} (h : role ≠ "") : role ++ "*" ≠ "*" := by
  intro heq
  have hd := congrArg String.data heq
  rw [String.data_append, star_data] at hd
  cases hrd : role.data with
  | nil => exact h (String.ext (by rw [hrd]))
  | cons a l =>
    rw [hrd] at hd
    have hlen := congrArg List.length hd
    simp at hlen

theorem ne_star_of_not_hasStar {p : String} (h : hasStar p = false) : p ≠ "*" := by
  intro heq
  subst heq
  rw [show hasStar "*" = true from rfl] at h
  exact Bool.noConfusion h

/-! ### Membership in generated identities -/

theorem mem_range1 (i : Nat) (c : Int) : i ∈ range1 c ↔ 1 ≤ i ∧ (i : Int) ≤ c := by
  simp only [range1, List.mem_map, List.mem_range]
  constructor
  · rintro ⟨j, hj, rfl⟩
    omega
  · rintro ⟨h1, h2⟩
    exact ⟨i - 1, by omega, by omega⟩

theorem mem_stepNames_iff (counts : String → Option Int) (p k : String) :
    k ∈ stepNames counts p ↔
      p ≠ "*" ∧
        ((hasStar p = true ∧ ∃ c, counts (removeFirstStar p) = some c ∧
            ∃ i : Nat, 1 ≤ i ∧ (i : Int) ≤ c ∧ k = removeFirstStar p ++ Nat.repr i) ∨
         (hasStar p = false ∧ k = p)) := by
  unfold stepNames
  by_cases h1 : p = "*"
  · simp [h1]
  · simp only [h1, if_false, ne_eq, not_false_iff, true_and]
    by_cases h2 : hasStar p
    · simp only [h2, if_true, Bool.true_eq_false, false_and, or_false, true_and]
      cases hc : counts (removeFirstStar p) with
      | none => simp
      | some c =>
        simp only [List.mem_map, Option.some.injEq]
        constructor
        · rintro ⟨i, hi, rfl⟩
          rw [mem_range1] at hi
          exact ⟨c, rfl, i, hi.1, hi.2, rfl⟩
        · rintro ⟨c', hc', i, hi1, hi2, rfl⟩
          subst hc'
          exact ⟨i, (mem_range1 i c).mpr ⟨hi1, hi2⟩, rfl⟩
    · have h2f : hasStar p = false := by
        simp only [Bool.not_eq_true] at h2
        exact h2
      simp only [h2, if_false, Bool.false_eq_true, false_and, false_or, List.mem_singleton]
      constructor
      · intro hk
        exact ⟨by simp [h2f], hk⟩
      · rintro ⟨-, hk⟩
        exact hk

theorem pass1_single (counts : String → Option Int) (e : String × JVal) (m₀ : ResolvedMap) :
    pass1 counts [e] m₀ = pass1Step counts m₀ e.1 e.2 := by
  rw [pass1, List.foldlM_cons]
  cases hstep : pass1Step counts m₀ e.1 e.2 <;> rfl

theorem dgLast_append_single (o : Option Datagen) (cs : List Contrib) (c : Contrib) :
    dgLast o (cs ++ [c]) =
      match c.dg with
      | some d => some d
      | none => dgLast o cs := by
  simp [dgLast, List.foldl_append]

/-! ### Claim theorems -/

/-- C2: an identity appears in the output mapping of `resolveInstances` iff
a role-wildcard pattern whose role has a positive count produced it (`k` is
`role ++ i` with `1 ≤ i ≤ count`), or an exact (non-starred, non-global)
pattern key named it; the global wildcard key `*` alone never causes an
identity to be added. -/
theorem spec_c2 {instances : List (String × JVal)} {counts : String → Option Int}
    {m : ResolvedMap} (h : resolveInstances instances counts = .ok m) (k : String) :
    k ∈ m.map Prod.fst ↔
      ∃ e ∈ instances, e.1 ≠ "*" ∧
        ((hasStar e.1 = true ∧ ∃ c, counts (removeFirstStar e.1) = some c ∧
            ∃ i : Nat, 1 ≤ i ∧ (i : Int) ≤ c ∧ k = removeFirstStar e.1 ++ Nat.repr i) ∨
         (hasStar e.1 = false ∧ k = e.1)) := by
  rw [resolveInstances_keys h k]
  constructor
  · rintro ⟨e, he, hk⟩
    exact ⟨e, he, (mem_stepNames_iff counts e.1 k).mp hk⟩
  · rintro ⟨e, he, hk⟩
    exact ⟨e, he, (mem_stepNames_iff counts e.1 k).mpr hk⟩

/-- C3: a single role-wildcard pattern `"<role>*"` (role non-empty and
star-free) whose role has count `n` produces exactly the identities
`role ++ "1" .. role ++ "n"`, in order, and nothing else. -/
theorem spec_c3 {role : String} {config : JVal} {counts : String → Option Int}
    {n : Int} {m : ResolvedMap}
    (hrole : role ≠ "") (hstar : '*' ∉ role.data)
    (hcount : counts role = some n)
    (h : resolveInstances [(role ++ "*", config)] counts = .ok m) :
    m.map Prod.fst = (range1 n).map (fun i => role ++ Nat.repr i) := by
  have hrs : removeFirstStar (role ++ "*") = role := removeFirstStar_role hstar
  have hneq : role ++ "*" ≠ "*" := append_star_ne_star hrole
  have hnames : stepNames counts (role ++ "*") = (range1 n).map (fun i => role ++ Nat.repr i) := by
    unfold stepNames
    rw [if_neg hneq, hasStar_append_star, if_pos rfl, hrs, hcount]
  obtain ⟨m₁, hp1, hcase⟩ := resolveInstances_ok_elim h
  have hjl : jlookup [(role ++ "*", config)] "*" = .undefined := by
    show (if role ++ "*" = "*" then config else jlookup [] "*") = .undefined
    rw [if_neg hneq]
    rfl
  have hm : m = m₁ := by
    rcases hcase with ⟨-, rfl⟩ | ⟨hg, -⟩
    · rfl
    · rw [hjl] at hg
      exact Bool.noConfusion hg
  subst hm
  rw [pass1_single] at hp1
  rcases pass1Step_ok_cases hp1 with ⟨hempty, rfl⟩ | ⟨c, -, rfl⟩
  · rw [hnames] at hempty
    rw [hempty]
    rfl
  · rw [hnames]
    rw [keys_touchAll (hnames ▸ stepNames_nodup counts (role ++ "*"))]
    · rfl
    · intro k _
      rfl

/-- C4: every resolved instance's `apps` and `files` are exactly the
concatenation, in declaration order, of the normalized entries of every
matching non-global pattern, followed by the global wildcard's entries;
duplicates are preserved by construction (`flatten` never deduplicates). -/
theorem spec_c4 {instances : List (String × JVal)} {counts : String → Option Int}
    {m : ResolvedMap} {k : String} {inst : Inst}
    (h : resolveInstances instances counts = .ok m)
    (hf : findInst m k = some inst) :
    inst.apps = ((allContribs counts instances k).map Contrib.apps).flatten ∧
    inst.files = ((allContribs counts instances k).map Contrib.files).flatten := by
  obtain ⟨-, hv⟩ := resolveInstances_value h hf
  obtain ⟨ha, hfi, -⟩ := applyContribsOpt_none_spec hv
  exact ⟨ha, hfi⟩

/-- C5: the datagen slot is last-write-wins over the matching contributions
in application order (global wildcard last); in particular, when the global
wildcard's configuration declares a recognized datagen, every resolved
instance's datagen equals the global declaration. -/
theorem spec_c5 {instances : List (String × JVal)} {counts : String → Option Int}
    {m : ResolvedMap} {k : String} {inst : Inst}
    (h : resolveInstances instances counts = .ok m)
    (hf : findInst m k = some inst) :
    inst.datagen = dgLast none (allContribs counts instances k) ∧
    (∀ cg d, truthy (jlookup instances "*") = true →
      contribution (jlookup instances "*") = .ok cg → cg.dg = some d →
      inst.datagen = some d) := by
  obtain ⟨-, hv⟩ := resolveInstances_value h hf
  obtain ⟨-, -, hd⟩ := applyContribsOpt_none_spec hv
  refine ⟨hd, ?_⟩
  intro cg d hg hcg hdg
  rw [hd]
  rw [show allContribs counts instances k =
        matchContribs counts instances k ++ globalContribs instances from rfl]
  rw [show globalContribs instances = [cg] by
    rw [globalContribs, if_pos hg, hcg]
    rfl]
  rw [dgLast_append_single, hdg]

/-! ### Concrete example (role wildcard + exact pattern + global wildcard) -/

def exInstances : List (String × JVal) :=
  [("*", .obj [("files", .obj [("source", .arr [.str "./files/health.conf"]),
                               ("destination", .str "system/local")]),
               ("datagens", .obj [("source", .arr [.str "./dg/g.py"]),
                                  ("destination", .str "/opt/log")])]),
   ("idx*", .obj [("apps", .obj [("source", .arr [.str "./apps/idx-base"]),
                                 ("destination", .str "apps")]),
                  ("datagen", .arr [.str "./dg/idx.py"])]),
   ("sh3", .obj [("apps", .arr [.str "./apps/sh-base"])])]

def exCounts : String → Option Int := fun r => if r = "idx" then some 2 else none

def exIdx1 : Inst :=
  ⟨[⟨.str "./apps/idx-base", .str "apps"⟩],
   [⟨.str "./files/health.conf", .str "system/local"⟩],
   some ⟨.arr [.str "./dg/g.py"], .str "/opt/log"⟩⟩

def exSh3 : Inst :=
  ⟨[⟨.str "./apps/sh-base", .str "apps"⟩],
   [⟨.str "./files/health.conf", .str "system/local"⟩],
   some ⟨.arr [.str "./dg/g.py"], .str "/opt/log"⟩⟩

def exResolved : ResolvedMap :=
  [("idx1", exIdx1),
   ("idx2", exIdx1),
   ("sh3", exSh3)]

/-- Witness for C2 at a concrete manifest. -/
theorem spec_c2_witness :
    "idx1" ∈ exResolved.map Prod.fst ↔
      ∃ e ∈ exInstances, e.1 ≠ "*" ∧
        ((hasStar e.1 = true ∧ ∃ c, exCounts (removeFirstStar e.1) = some c ∧
            ∃ i : Nat, 1 ≤ i ∧ (i : Int) ≤ c ∧ "idx1" = removeFirstStar e.1 ++ Nat.repr i) ∨
         (hasStar e.1 = false ∧ "idx1" = e.1)) :=
  spec_c2 (by rfl) "idx1"

/-- Witness for C3 at a concrete wildcard pattern. -/
theorem spec_c3_witness :
    ([("idx1", emptyInst), ("idx2", emptyInst)] : ResolvedMap).map Prod.fst =
      (range1 2).map (fun i => "idx" ++ Nat.repr i) :=
  @spec_c3 "idx" (.obj []) exCounts 2 [("idx1", emptyInst), ("idx2", emptyInst)]
    (by decide) (by decide) (by rfl) (by rfl)

/-- Witness for C4 at a concrete manifest and identity. -/
theorem spec_c4_witness :
    exSh3.apps = ((allContribs exCounts exInstances "sh3").map Contrib.apps).flatten ∧
    exSh3.files = ((allContribs exCounts exInstances "sh3").map Contrib.files).flatten :=
  spec_c4 (by rfl) (by rfl)

/-- Witness for C5 at a concrete manifest and identity. -/
theorem spec_c5_witness :
    exIdx1.datagen = dgLast none (allContribs exCounts exInstances "idx1") ∧
    (∀ cg d, truthy (jlookup exInstances "*") = true →
      contribution (jlookup exInstances "*") = .ok cg → cg.dg = some d →
      exIdx1.datagen = some d) :=
  spec_c5 (by rfl) (by rfl)

/-- Keys produced by a single-pattern map: exactly the names the pattern
touches. -/
theorem resolveInstances_single_keys {pattern : String} {config : JVal}
    {counts : String → Option Int} {m : ResolvedMap}
    (hp : pattern ≠ "*")
    (h : resolveInstances [(pattern, config)] counts = .ok m) :
    m.map Prod.fst = stepNames counts pattern := by
  obtain ⟨m₁, hp1, hcase⟩ := resolveInstances_ok_elim h
  have hjl : jlookup [(pattern, config)] "*" = .undefined := by
    show (if pattern = "*" then config else jlookup [] "*") = .undefined
    rw [if_neg hp]
    rfl
  have hm : m = m₁ := by
    rcases hcase with ⟨-, rfl⟩ | ⟨hg, -⟩
    · rfl
    · rw [hjl] at hg
      exact Bool.noConfusion hg
  subst hm
  rw [pass1_single] at hp1
  rcases pass1Step_ok_cases hp1 with ⟨hempty, rfl⟩ | ⟨c, -, rfl⟩
  · rw [hempty]
    rfl
  · rw [keys_touchAll (stepNames_nodup counts pattern)]
    · rfl
    · intro k _
      rfl

/-- C6 counterexample: the pattern `a*b` contains `*` without ending in it;
the claim says it is an exact pattern creating the identity `a*b` verbatim,
but the code expands it as a wildcard (the first `*` is removed to obtain
role `ab`), producing `ab1` and no instance named `a*b`. -/
theorem spec_c6_counterexample :
    (resolveInstances [("a*b", .obj [])] (fun r => if r = "ab" then some 1 else none)).map
        (List.map Prod.fst) = .ok ["ab1"] ∧ "a*b" ∉ ["ab1"] :=
  ⟨rfl, by decide⟩

/-- C6 amended: a pattern key other than `*` is exact iff it contains no `*`
anywhere (not merely iff it does not end in `*`); any key containing `*` is
expanded as a role wildcard whose role is the key with its first `*` removed. -/
theorem spec_c6 {pattern : String} {config : JVal} {counts : String → Option Int}
    {m : ResolvedMap}
    (hp : pattern ≠ "*")
    (h : resolveInstances [(pattern, config)] counts = .ok m) :
    (hasStar pattern = false → m.map Prod.fst = [pattern]) ∧
    (hasStar pattern = true →
      m.map Prod.fst =
        (match counts (removeFirstStar pattern) with
         | some c => (range1 c).map (fun i => removeFirstStar pattern ++ Nat.repr i)
         | none => [])) := by
  have hkeys := resolveInstances_single_keys hp h
  constructor
  · intro hs
    rw [hkeys]
    unfold stepNames
    rw [if_neg hp, hs]
    rfl
  · intro hs
    rw [hkeys]
    unfold stepNames
    rw [if_neg hp, hs]
    rfl

def exC6Counts : String → Option Int := fun r => if r = "ab" then some 1 else none

/-- Witness for the amended C6 at a concrete starred-inside pattern. -/
theorem spec_c6_witness :
    (hasStar "a*b" = false →
      ([("ab1", emptyInst)] : ResolvedMap).map Prod.fst = ["a*b"]) ∧
    (hasStar "a*b" = true →
      ([("ab1", emptyInst)] : ResolvedMap).map Prod.fst =
        (match exC6Counts (removeFirstStar "a*b") with
         | some c => (range1 c).map (fun i => removeFirstStar "a*b" ++ Nat.repr i)
         | none => [])) :=
  @spec_c6 "a*b" (.obj []) exC6Counts [("ab1", emptyInst)] (by decide) (by rfl)

/-! ### C1: which shapes make resolution throw -/

/-- C1 counterexample: the apps single-object form with a truthy non-array
`source` (here the string `"x"`) makes the source call `.map` on a string,
raising a `TypeError` — `resolveInstances` does not return a mapping. -/
theorem spec_c1_counterexample :
    resolveInstances [("a", .obj [("apps", .obj [("source", .str "x")])])] (fun _ => none) =
      .error .typeError := rfl

def notNullish : JVal → Bool
  | .null => false
  | .undefined => false
  | _ => true

/-- A `source` field that does not make `.map` throw: an array, or falsy. -/
def safeSource : JVal → Bool
  | .arr _ => true
  | v => !truthy v

/-- A co-located-role group that neither throws on `.source` access nor on
`.source.map`. -/
def safeGroup (g : JVal) : Bool :=
  notNullish g && safeSource (getProp g "source")

/-- An `apps` declaration that cannot throw. -/
def safeApps : JVal → Bool
  | .arr [] => true
  | .arr (.str _ :: _) => true
  | .arr (e :: rest) => (e :: rest).all safeGroup
  | v => !truthy v || safeSource (getProp v "source")

/-- A pattern configuration that cannot throw: not `null`/`undefined` and
with a safe `apps` declaration (files and datagen handling never throw). -/
def safeConfig (config : JVal) : Bool :=
  notNullish config && safeApps (getProp config "apps")

theorem propE_ok_of_notNullish {v : JVal} (h : notNullish v = true) (key : String) :
    propE v key = .ok (getProp v key) := by
  cases v <;> first | rfl | exact Bool.noConfusion h

theorem safeSource_cases {src : JVal} (h : safeSource src = true) :
    truthy src = false ∨ ∃ xs, src = .arr xs := by
  cases src with
  | arr xs => exact Or.inr ⟨xs, rfl⟩
  | null => exact Or.inl rfl
  | undefined => exact Or.inl rfl
  | bool b =>
    left
    simp only [safeSource, Bool.not_eq_true'] at h
    exact h
  | num n =>
    left
    simp only [safeSource, Bool.not_eq_true'] at h
    exact h
  | str s =>
    left
    simp only [safeSource, Bool.not_eq_true'] at h
    exact h
  | obj fs =>
    left
    simp only [safeSource, Bool.not_eq_true'] at h
    exact h

theorem appGroupRefs_eq (g : JVal) :
    appGroupRefs g =
      match g with
      | .null => .error .typeError
      | .undefined => .error .typeError
      | g =>
        if truthy (getProp g "source") then
          match getProp g "source" with
          | .arr xs =>
            .ok (refsOf xs
              (if truthy (getProp g "destination") then getProp g "destination" else .str "apps"))
          | _ => .error .typeError
        else .ok [] := by
  cases g <;> rfl

theorem appGroupRefs_ok_of_safe {g : JVal} (h : safeGroup g = true) :
    ∃ rs, appGroupRefs g = .ok rs := by
  obtain ⟨h1, h2⟩ := Bool.and_eq_true_iff.mp h
  rw [appGroupRefs_eq]
  rcases safeSource_cases h2 with hfalse | ⟨xs, hxs⟩
  · cases g
    case null => exact Bool.noConfusion h1
    case undefined => exact Bool.noConfusion h1
    all_goals
      refine ⟨[], ?_⟩
      dsimp only
      rw [if_neg (by rw [hfalse]; exact Bool.noConfusion)]
  · cases g
    case null => exact Bool.noConfusion h1
    case undefined => exact Bool.noConfusion h1
    all_goals
      dsimp only
      rw [hxs]
      exact ⟨_, rfl⟩

theorem foldGroups_ok {l : List JVal} (h : ∀ g ∈ l, safeGroup g = true) :
    ∀ acc : List Ref,
      ∃ rs, l.foldlM (fun acc g => do
          let rs ← appGroupRefs g
          pure (acc ++ rs)) acc = .ok rs := by
  induction l with
  | nil => intro acc; exact ⟨acc, rfl⟩
  | cons g l ih =>
    intro acc
    obtain ⟨rs, hrs⟩ := appGroupRefs_ok_of_safe (h g (List.mem_cons_self g l))
    obtain ⟨rs', hrs'⟩ := ih (fun g' hg' => h g' (List.mem_cons_of_mem g hg')) (acc ++ rs)
    refine ⟨rs', ?_⟩
    rw [List.foldlM_cons, hrs, exc_bind_ok, pure_bind]
    exact hrs'

theorem normApps_eq (a : JVal) :
    normApps a =
      match a with
      | .arr [] => .ok []
      | .arr (.str s :: rest) => .ok (refsOf (.str s :: rest) (.str "apps"))
      | .arr (e :: rest) =>
        (e :: rest).foldlM (fun acc g => do
          let rs ← appGroupRefs g
          pure (acc ++ rs)) []
      | v =>
        if truthy v then
          if truthy (getProp v "source") then
            match getProp v "source" with
            | .arr xs =>
              .ok (refsOf xs
                (if truthy (getProp v "destination") then getProp v "destination" else .str "apps"))
            | _ => .error .typeError
          else .ok []
        else .ok [] := by
  cases a with
  | null => rfl
  | undefined => rfl
  | bool b => rfl
  | num n => rfl
  | str s => rfl
  | obj fs => rfl
  | arr elems =>
    cases elems with
    | nil => rfl
    | cons e rest => cases e <;> rfl

theorem normApps_ok_of_safe {a : JVal} (h : safeApps a = true) :
    ∃ rs, normApps a = .ok rs := by
  rw [normApps_eq]
  cases a with
  | null => exact ⟨[], rfl⟩
  | undefined => exact ⟨[], rfl⟩
  | arr elems =>
    cases elems with
    | nil => exact ⟨[], rfl⟩
    | cons e rest =>
      cases e with
      | str s => exact ⟨_, rfl⟩
      | null =>
        dsimp only
        simp only [safeApps] at h
        exact foldGroups_ok (fun g hg => List.all_eq_true.mp h g hg) []
      | undefined =>
        dsimp only
        simp only [safeApps] at h
        exact foldGroups_ok (fun g hg => List.all_eq_true.mp h g hg) []
      | bool b =>
        dsimp only
        simp only [safeApps] at h
        exact foldGroups_ok (fun g hg => List.all_eq_true.mp h g hg) []
      | num n =>
        dsimp only
        simp only [safeApps] at h
        exact foldGroups_ok (fun g hg => List.all_eq_true.mp h g hg) []
      | arr xs =>
        dsimp only
        simp only [safeApps] at h
        exact foldGroups_ok (fun g hg => List.all_eq_true.mp h g hg) []
      | obj fs =>
        dsimp only
        simp only [safeApps] at h
        exact foldGroups_ok (fun g hg => List.all_eq_true.mp h g hg) []
  | bool b =>
    dsimp only
    by_cases ht : truthy (JVal.bool b)
    · rw [if_pos ht]
      simp only [safeApps, ht, Bool.not_true, Bool.false_or] at h
      rcases safeSource_cases h with hfalse | ⟨xs, hxs⟩
      · rw [if_neg (by rw [hfalse]; exact Bool.noConfusion)]
        exact ⟨[], rfl⟩
      · rw [hxs]
        exact ⟨_, rfl⟩
    · rw [if_neg ht]
      exact ⟨[], rfl⟩
  | num n =>
    dsimp only
    by_cases ht : truthy (JVal.num n)
    · rw [if_pos ht]
      simp only [safeApps, ht, Bool.not_true, Bool.false_or] at h
      rcases safeSource_cases h with hfalse | ⟨xs, hxs⟩
      · rw [if_neg (by rw [hfalse]; exact Bool.noConfusion)]
        exact ⟨[], rfl⟩
      · rw [hxs]
        exact ⟨_, rfl⟩
    · rw [if_neg ht]
      exact ⟨[], rfl⟩
  | str s =>
    dsimp only
    by_cases ht : truthy (JVal.str s)
    · rw [if_pos ht]
      simp only [safeApps, ht, Bool.not_true, Bool.false_or] at h
      rcases safeSource_cases h with hfalse | ⟨xs, hxs⟩
      · rw [if_neg (by rw [hfalse]; exact Bool.noConfusion)]
        exact ⟨[], rfl⟩
      · rw [hxs]
        exact ⟨_, rfl⟩
    · rw [if_neg ht]
      exact ⟨[], rfl⟩
  | obj fs =>
    dsimp only
    by_cases ht : truthy (JVal.obj fs)
    · rw [if_pos ht]
      simp only [safeApps, ht, Bool.not_true, Bool.false_or] at h
      rcases safeSource_cases h with hfalse | ⟨xs, hxs⟩
      · rw [if_neg (by rw [hfalse]; exact Bool.noConfusion)]
        exact ⟨[], rfl⟩
      · rw [hxs]
        exact ⟨_, rfl⟩
    · rw [if_neg ht]
      exact ⟨[], rfl⟩

theorem contribution_ok_of_safe {config : JVal} (h : safeConfig config = true) :
    ∃ c, contribution config = .ok c := by
  obtain ⟨h1, h2⟩ := Bool.and_eq_true_iff.mp h
  obtain ⟨rs, hrs⟩ := normApps_ok_of_safe h2
  rw [contribution]
  rw [propE_ok_of_notNullish h1, exc_bind_ok, hrs, exc_bind_ok]
  rw [propE_ok_of_notNullish h1, exc_bind_ok]
  rw [propE_ok_of_notNullish h1, exc_bind_ok]
  rw [propE_ok_of_notNullish h1, exc_bind_ok]
  exact ⟨_, rfl⟩

theorem pass1_ok_of_safe {counts : String → Option Int} :
    ∀ {l : List (String × JVal)}, (∀ e ∈ l, safeConfig e.2 = true) →
      ∀ m₀ : ResolvedMap, ∃ m, pass1 counts l m₀ = .ok m := by
  intro l
  induction l with
  | nil => intro _ m₀; exact ⟨m₀, rfl⟩
  | cons e l ih =>
    intro h m₀
    obtain ⟨c, hc⟩ := contribution_ok_of_safe (h e (List.mem_cons_self e l))
    obtain ⟨m, hm⟩ := ih (fun e' he' => h e' (List.mem_cons_of_mem e he')) 
      (touchAll m₀ (stepNames counts e.1) c)
    refine ⟨m, ?_⟩
    rw [pass1, List.foldlM_cons, pass1Step_ok_of_contrib hc, exc_bind_ok]
    exact hm

theorem jlookup_undef_or_mem (l : List (String × JVal)) (k : String) :
    jlookup l k = .undefined ∨ (k, jlookup l k) ∈ l := by
  induction l with
  | nil => exact Or.inl rfl
  | cons e rest ih =>
    obtain ⟨ek, ev⟩ := e
    by_cases h : ek = k
    · subst h
      right
      rw [show jlookup ((ek, ev) :: rest) ek = ev from by rw [jlookup, if_pos rfl]]
      exact List.mem_cons_self _ _
    · rw [show jlookup ((ek, ev) :: rest) k = jlookup rest k from by rw [jlookup, if_neg h]]
      rcases ih with h' | h'
      · exact Or.inl h'
      · exact Or.inr (List.mem_cons_of_mem _ h')

/-- C1 amended: `resolveInstances` raises no error (and returns a result
mapping) provided every pattern's declaration avoids the three throwing
shapes: a `null`/`undefined` configuration value, an apps array-of-objects
entry that is `null`/`undefined`, and an apps `source` field (in the group
or single-object form) that is truthy but not an array. All other malformed
or unrecognized shapes contribute nothing. -/
theorem spec_c1 {instances : List (String × JVal)} {counts : String → Option Int}
    (h : ∀ e ∈ instances, safeConfig e.2 = true) :
    ∃ m, resolveInstances instances counts = .ok m := by
  obtain ⟨m₁, hm₁⟩ := pass1_ok_of_safe h []
  rw [resolveInstances_eq, hm₁, exc_bind_ok]
  by_cases hg : truthy (jlookup instances "*")
  · rw [if_pos hg]
    rcases jlookup_undef_or_mem instances "*" with hund | hmem
    · rw [hund] at hg
      exact Bool.noConfusion hg
    · obtain ⟨cg, hcg⟩ := contribution_ok_of_safe (h _ hmem)
      exact ⟨_, pass2_ok_of_contrib hcg m₁⟩
  · rw [if_neg hg]
    exact ⟨m₁, rfl⟩

def exC1Instances : List (String × JVal) :=
  [("w*", .obj [("apps", .num 5), ("files", .str "x"),
                ("datagen", .obj [("source", .bool false)])]),
   ("a", .str "weird"),
   ("b", .obj [("apps", .arr [.obj [("source", .arr [.num 1]), ("destination", .num 0)],
                              .obj [("nosource", .bool true)]])])]

/-- Witness for the amended C1: a manifest full of malformed-but-safe shapes
resolves without error. -/
theorem spec_c1_witness :
    ∃ m, resolveInstances exC1Instances (fun r => if r = "w" then some 2 else none) = .ok m :=
  spec_c1 (by decide)

/-! ### C8: when the datagen overwrite occurs -/

/-- C8 counterexample: `[42]` is an array but not a sequence of strings; the
claim says the datagen slot stays unchanged (`null`), yet the code checks
only `Array.isArray` and overwrites the slot with `{source: [42],
destination: null}`. -/
theorem spec_c8_counterexample :
    resolveInstances [("a", .obj [("datagen", .arr [.num 42])])] (fun _ => none) =
      .ok [("a", ⟨[], [], some ⟨.arr [.num 42], .null⟩⟩)] ∧
    (some (⟨.arr [.num 42], .null⟩ : Datagen) ≠ (none : Option Datagen)) :=
  ⟨rfl, by simp⟩

theorem normDatagen_none_iff (v : JVal) :
    normDatagen v = none ↔
      truthy v = false ∨ ((∀ xs, v ≠ .arr xs) ∧ truthy (getProp v "source") = false) := by
  cases v with
  | arr xs =>
    constructor
    · intro h
      exact Option.noConfusion h
    · rintro (h | ⟨h, -⟩)
      · exact Bool.noConfusion h
      · exact absurd rfl (h xs)
  | null => simp [normDatagen, truthy]
  | undefined => simp [normDatagen, truthy]
  | bool b =>
    by_cases ht : truthy (JVal.bool b)
    · by_cases hs : truthy (getProp (JVal.bool b) "source")
      · simp [normDatagen, ht, hs]
      · simp only [Bool.not_eq_true] at hs
        simp [normDatagen, ht, hs]
    · simp only [Bool.not_eq_true] at ht
      simp [normDatagen, ht]
  | num n =>
    by_cases ht : truthy (JVal.num n)
    · by_cases hs : truthy (getProp (JVal.num n) "source")
      · simp [normDatagen, ht, hs]
      · simp only [Bool.not_eq_true] at hs
        simp [normDatagen, ht, hs]
    · simp only [Bool.not_eq_true] at ht
      simp [normDatagen, ht]
  | str s =>
    by_cases ht : truthy (JVal.str s)
    · by_cases hs : truthy (getProp (JVal.str s) "source")
      · simp [normDatagen, ht, hs]
      · simp only [Bool.not_eq_true] at hs
        simp [normDatagen, ht, hs]
    · simp only [Bool.not_eq_true] at ht
      simp [normDatagen, ht]
  | obj fs =>
    by_cases ht : truthy (JVal.obj fs)
    · by_cases hs : truthy (getProp (JVal.obj fs) "source")
      · simp [normDatagen, ht, hs]
      · simp only [Bool.not_eq_true] at hs
        simp [normDatagen, ht, hs]
    · simp only [Bool.not_eq_true] at ht
      simp [normDatagen, ht]

theorem contribution_dg_aux {config : JVal} {c : Contrib}
    (hnn : notNullish config = true) (hc : contribution config = .ok c) :
    c.dg = normDatagen
      (if truthy (getProp config "datagens") then getProp config "datagens"
       else getProp config "datagen") := by
  rw [contribution] at hc
  rw [propE_ok_of_notNullish hnn, exc_bind_ok] at hc
  cases hn : normApps (getProp config "apps") with
  | error er =>
    rw [hn, exc_bind_err] at hc
    exact Except.noConfusion hc
  | ok rs =>
    rw [hn, exc_bind_ok] at hc
    rw [propE_ok_of_notNullish hnn, exc_bind_ok] at hc
    rw [propE_ok_of_notNullish hnn, exc_bind_ok] at hc
    rw [propE_ok_of_notNullish hnn, exc_bind_ok] at hc
    injection hc with hc
    rw [← hc]

theorem contribution_dg {config : JVal} {c : Contrib} (hc : contribution config = .ok c) :
    c.dg = normDatagen
      (if truthy (getProp config "datagens") then getProp config "datagens"
       else getProp config "datagen") := by
  cases config with
  | null => exact Except.noConfusion hc
  | undefined => exact Except.noConfusion hc
  | bool b => exact contribution_dg_aux rfl hc
  | num n => exact contribution_dg_aux rfl hc
  | str s => exact contribution_dg_aux rfl hc
  | arr xs => exact contribution_dg_aux rfl hc
  | obj fs => exact contribution_dg_aux rfl hc

/-- C8 amended: the datagen slot is left unchanged exactly when the chosen
declaration (`datagens` if truthy, else `datagen`) is falsy, or is a
non-array value whose `source` field is falsy; in particular any array
(regardless of element types) and any truthy value with a truthy `source`
does overwrite the slot. -/
theorem spec_c8 {config : JVal} {c : Contrib} (hc : contribution config = .ok c) :
    (c.dg = none ↔
      (truthy (if truthy (getProp config "datagens") then getProp config "datagens"
               else getProp config "datagen") = false ∨
       ((∀ xs, (if truthy (getProp config "datagens") then getProp config "datagens"
                else getProp config "datagen") ≠ .arr xs) ∧
        truthy (getProp
          (if truthy (getProp config "datagens") then getProp config "datagens"
           else getProp config "datagen") "source") = false))) ∧
    (c.dg = none → ∀ inst, (applyContrib inst c).datagen = inst.datagen) := by
  constructor
  · rw [contribution_dg hc]
    exact normDatagen_none_iff _
  · intro hnone inst
    rw [applyContrib, hnone]

/-- Witness for the amended C8: `datagen: 7` is truthy but neither an array
nor a value with truthy `source`, so the slot is untouched. -/
theorem spec_c8_witness :
    ((⟨[], [], none⟩ : Contrib).dg = none ↔
      (truthy (if truthy (getProp (JVal.obj [("datagen", .num 7)]) "datagens")
               then getProp (JVal.obj [("datagen", .num 7)]) "datagens"
               else getProp (JVal.obj [("datagen", .num 7)]) "datagen") = false ∨
       ((∀ xs, (if truthy (getProp (JVal.obj [("datagen", .num 7)]) "datagens")
                then getProp (JVal.obj [("datagen", .num 7)]) "datagens"
                else getProp (JVal.obj [("datagen", .num 7)]) "datagen") ≠ .arr xs) ∧
        truthy (getProp
          (if truthy (getProp (JVal.obj [("datagen", .num 7)]) "datagens")
           then getProp (JVal.obj [("datagen", .num 7)]) "datagens"
           else getProp (JVal.obj [("datagen", .num 7)]) "datagen") "source") = false))) ∧
    ((⟨[], [], none⟩ : Contrib).dg = none →
      ∀ inst, (applyContrib inst ⟨[], [], none⟩).datagen = inst.datagen) :=
  @spec_c8 (JVal.obj [("datagen", .num 7)]) ⟨[], [], none⟩ (by rfl)

/-! ### C10: interpretation of array-shaped apps declarations -/

/-- C10 counterexample: with a non-string first element, a `null` element of
the array should "contribute nothing" per the claim, but accessing
`appGroup.source` on `null` raises a `TypeError` and resolution returns no
mapping. -/
theorem spec_c10_counterexample :
    resolveInstances [("a", .obj [("apps", .arr [.obj [], .null])])] (fun _ => none) =
      .error .typeError := rfl

/-- The refs one safe co-located-role group contributes: its `source`
elements when `source` is an array (arrays are always truthy), nothing when
`source` is falsy. -/
def groupRefsPure (g : JVal) : List Ref :=
  match getProp g "source" with
  | .arr xs =>
    refsOf xs (if truthy (getProp g "destination") then getProp g "destination" else .str "apps")
  | _ => []

theorem appGroupRefs_pure {g : JVal} (h : safeGroup g = true) :
    appGroupRefs g = .ok (groupRefsPure g) := by
  obtain ⟨h1, h2⟩ := Bool.and_eq_true_iff.mp h
  rw [appGroupRefs_eq]
  rcases safeSource_cases h2 with hfalse | ⟨xs, hxs⟩
  · have hnotarr : ∀ xs, getProp g "source" ≠ .arr xs := by
      intro xs hxs
      rw [hxs] at hfalse
      exact Bool.noConfusion hfalse
    have hpure : groupRefsPure g = [] := by
      rw [groupRefsPure]
      cases hsrc : getProp g "source" with
      | arr xs => exact absurd hsrc (hnotarr xs)
      | null => rfl
      | undefined => rfl
      | bool b => rfl
      | num n => rfl
      | str s => rfl
      | obj fs => rfl
    rw [hpure]
    cases g
    case null => exact Bool.noConfusion h1
    case undefined => exact Bool.noConfusion h1
    all_goals
      dsimp only
      rw [if_neg (by rw [hfalse]; exact Bool.noConfusion)]
  · have hpure : groupRefsPure g =
        refsOf xs (if truthy (getProp g "destination") then getProp g "destination"
                   else .str "apps") := by
      rw [groupRefsPure, hxs]
    rw [hpure]
    cases g
    case null => exact Bool.noConfusion h1
    case undefined => exact Bool.noConfusion h1
    all_goals
      dsimp only
      rw [hxs]
      rfl

theorem foldGroups_pure {l : List JVal} (h : ∀ g ∈ l, safeGroup g = true) :
    ∀ acc : List Ref,
      l.foldlM (fun acc g => do
          let rs ← appGroupRefs g
          pure (acc ++ rs)) acc = .ok (acc ++ (l.map groupRefsPure).flatten) := by
  induction l with
  | nil => intro acc; simp only [List.map_nil, List.flatten_nil, List.append_nil]; rfl
  | cons g l ih =>
    intro acc
    rw [List.foldlM_cons, appGroupRefs_pure (h g (List.mem_cons_self g l)), exc_bind_ok,
      pure_bind, ih (fun g' hg' => h g' (List.mem_cons_of_mem g hg'))]
    simp [List.append_assoc]

/-- C10 amended: a non-empty apps array is interpreted solely by its first
element's string-ness. A string first element triggers the legacy rule on
every element (whatever its type); otherwise every element is treated as a
co-located-role group — an element that is `null`/`undefined` or whose
`source` is truthy-but-non-array raises a `TypeError` (see the
counterexample), and any other element lacking a truthy `source` contributes
nothing. The empty array contributes nothing. -/
theorem spec_c10 (e : JVal) (rest : List JVal) :
    (normApps (.arr []) = .ok []) ∧
    ((∃ s, e = .str s) →
      normApps (.arr (e :: rest)) = .ok ((e :: rest).map (fun a => ⟨a, .str "apps"⟩))) ∧
    ((∀ s, e ≠ .str s) → (∀ g ∈ e :: rest, safeGroup g = true) →
      normApps (.arr (e :: rest)) = .ok (((e :: rest).map groupRefsPure).flatten)) := by
  refine ⟨rfl, ?_, ?_⟩
  · rintro ⟨s, rfl⟩
    rfl
  · intro hne hsafe
    have hfold := foldGroups_pure hsafe []
    rw [List.nil_append] at hfold
    rw [normApps_eq]
    cases e with
    | str s => exact absurd rfl (hne s)
    | null => exact hfold
    | undefined => exact hfold
    | bool b => exact hfold
    | num n => exact hfold
    | arr xs => exact hfold
    | obj fs => exact hfold

/-- Witness for the amended C10 at concrete arrays (legacy and group form). -/
theorem spec_c10_witness :
    ((∃ s, JVal.str "./a" = JVal.str s) →
      normApps (.arr [.str "./a", .num 3]) =
        .ok (([JVal.str "./a", JVal.num 3]).map (fun a => ⟨a, .str "apps"⟩))) ∧
    ((∀ s, JVal.obj [("source", .arr [.str "./x"])] ≠ JVal.str s) →
      (∀ g ∈ [JVal.obj [("source", .arr [.str "./x"])], JVal.obj []], safeGroup g = true) →
      normApps (.arr [.obj [("source", .arr [.str "./x"])], .obj []]) =
        .ok ((([JVal.obj [("source", .arr [.str "./x"])], JVal.obj []]).map groupRefsPure).flatten)) :=
  ⟨fun hs => (spec_c10 (.str "./a") [.num 3]).2.1 hs,
   fun hne hsafe => (spec_c10 (.obj [("source", .arr [.str "./x"])]) [.obj []]).2.2 hne hsafe⟩

/-! ### C7: legacy apps format equivalence -/

/-- Two configuration values the resolver cannot distinguish: same
truthiness and same contribution. -/
def ConfigEquiv (v w : JVal) : Prop :=
  truthy v = truthy w ∧ contribution v = contribution w

/-- Two pattern-map entries the resolver cannot distinguish. -/
def EntryEquiv (e f : String × JVal) : Prop :=
  e.1 = f.1 ∧ ConfigEquiv e.2 f.2

theorem entryEquiv_refl (e : String × JVal) : EntryEquiv e e :=
  ⟨rfl, rfl, rfl⟩

theorem forall₂_entryEquiv_refl (l : List (String × JVal)) : List.Forall₂ EntryEquiv l l := by
  induction l with
  | nil => exact List.Forall₂.nil
  | cons e rest ih => exact List.Forall₂.cons (entryEquiv_refl e) ih

theorem forall₂_entryEquiv_append {l1 l2 l3 l4 : List (String × JVal)}
    (h1 : List.Forall₂ EntryEquiv l1 l2) (h2 : List.Forall₂ EntryEquiv l3 l4) :
    List.Forall₂ EntryEquiv (l1 ++ l3) (l2 ++ l4) := by
  induction h1 with
  | nil => exact h2
  | cons he _ ih => exact List.Forall₂.cons he ih

theorem pass1Step_congr {c1 c2 : JVal} (h : contribution c1 = contribution c2)
    (counts : String → Option Int) (m : ResolvedMap) (p : String) :
    pass1Step counts m p c1 = pass1Step counts m p c2 := by
  have hupd : ∀ (m : ResolvedMap) (k : String), updateKey m k c1 = updateKey m k c2 := by
    intro m k
    rw [updateKey_eq, updateKey_eq, h]
  unfold pass1Step
  by_cases h1 : p = "*"
  · simp [h1]
  · simp only [h1, if_false]
    by_cases h2 : hasStar p
    · simp only [h2, if_true]
      cases counts (removeFirstStar p) with
      | none => rfl
      | some c =>
        by_cases hc : c = 0
        · simp [hc]
        · simp only [hc, if_false]
          rw [show (fun (m : ResolvedMap) (i : Nat) =>
                updateKey m (removeFirstStar p ++ Nat.repr i) c1) =
              (fun (m : ResolvedMap) (i : Nat) =>
                updateKey m (removeFirstStar p ++ Nat.repr i) c2) from
            funext fun m => funext fun i => hupd m _]
    · simp only [h2, if_false, Bool.false_eq_true]
      exact hupd m p

theorem pass1_congr {l1 l2 : List (String × JVal)} (h : List.Forall₂ EntryEquiv l1 l2)
    (counts : String → Option Int) :
    ∀ m₀ : ResolvedMap, pass1 counts l1 m₀ = pass1 counts l2 m₀ := by
  induction h with
  | nil => intro m₀; rfl
  | @cons a b l1' l2' he hrest ih =>
    intro m₀
    rw [pass1, List.foldlM_cons, pass1, List.foldlM_cons]
    have hstep : pass1Step counts m₀ a.1 a.2 = pass1Step counts m₀ b.1 b.2 := by
      rw [he.1]
      exact pass1Step_congr he.2.2 counts m₀ b.1
    rw [hstep]
    rw [show (fun m => List.foldlM (fun m e => pass1Step counts m e.1 e.2) m l1') =
        (fun m => List.foldlM (fun m e => pass1Step counts m e.1 e.2) m l2') from
      funext fun m => ih m]

theorem jlookup_equiv {l1 l2 : List (String × JVal)} (h : List.Forall₂ EntryEquiv l1 l2)
    (k : String) : ConfigEquiv (jlookup l1 k) (jlookup l2 k) := by
  induction h with
  | nil => exact ⟨rfl, rfl⟩
  | @cons a b l1' l2' he hrest ih =>
    obtain ⟨ak, av⟩ := a
    obtain ⟨bk, bv⟩ := b
    obtain ⟨hk, hv⟩ := he
    simp only at hk
    subst hk
    by_cases hx : ak = k
    · rw [show jlookup ((ak, av) :: l1') k = av from by rw [jlookup, if_pos hx]]
      rw [show jlookup ((ak, bv) :: l2') k = bv from by rw [jlookup, if_pos hx]]
      exact hv
    · rw [show jlookup ((ak, av) :: l1') k = jlookup l1' k from by rw [jlookup, if_neg hx]]
      rw [show jlookup ((ak, bv) :: l2') k = jlookup l2' k from by rw [jlookup, if_neg hx]]
      exact ih

theorem pass2_congr {g1 g2 : JVal} (h : contribution g1 = contribution g2) :
    ∀ m : ResolvedMap, pass2 g1 m = pass2 g2 m := by
  intro m
  induction m with
  | nil => rfl
  | cons e rest ih =>
    rw [pass2, List.mapM_cons, pass2, List.mapM_cons]
    rw [show applyConfig g1 e.2 = applyConfig g2 e.2 from by rw [applyConfig, applyConfig, h]]
    rw [show (List.mapM (fun e => do
          let inst' ← applyConfig g1 e.2
          pure (e.1, inst')) rest : Except JsErr ResolvedMap) =
        List.mapM (fun e => do
          let inst' ← applyConfig g2 e.2
          pure (e.1, inst')) rest from ih]

theorem resolveInstances_congr {l1 l2 : List (String × JVal)}
    (h : List.Forall₂ EntryEquiv l1 l2) (counts : String → Option Int) :
    resolveInstances l1 counts = resolveInstances l2 counts := by
  rw [resolveInstances_eq, resolveInstances_eq, pass1_congr h counts]
  obtain ⟨ht, hc⟩ := jlookup_equiv h "*"
  rw [show (fun m => if truthy (jlookup l1 "*") then pass2 (jlookup l1 "*") m else pure m) =
      (fun m => if truthy (jlookup l2 "*") then pass2 (jlookup l2 "*") m else pure m) from by
    funext m
    rw [ht]
    by_cases hg : truthy (jlookup l2 "*")
    · rw [if_pos hg, if_pos hg, pass2_congr hc]
    · rw [if_neg hg, if_neg hg]]

/-- The legacy apps shape: an array of plain strings. -/
def legacyApps (ss : List String) : JVal := .arr (ss.map .str)

/-- The explicit single-object apps shape with destination `"apps"`. -/
def objApps (ss : List String) : JVal :=
  .obj [("source", .arr (ss.map .str)), ("destination", .str "apps")]

theorem normApps_legacy (ss : List String) :
    normApps (legacyApps ss) = .ok (ss.map fun s => ⟨.str s, .str "apps"⟩) ∧
    normApps (objApps ss) = .ok (ss.map fun s => ⟨.str s, .str "apps"⟩) := by
  have hrefs : refsOf (ss.map .str) (.str "apps") = ss.map fun s => ⟨.str s, .str "apps"⟩ := by
    rw [refsOf, List.map_map]
    rfl
  constructor
  · cases ss with
    | nil => rfl
    | cons s rest =>
      rw [show normApps (legacyApps (s :: rest)) =
          .ok (refsOf ((s :: rest).map .str) (.str "apps")) from rfl]
      rw [hrefs]
  · rw [show normApps (objApps ss) = .ok (refsOf (ss.map .str) (.str "apps")) from rfl]
    rw [hrefs]

theorem contribution_apps_only (a : JVal) :
    contribution (.obj [("apps", a)]) = (normApps a).map (fun rs => ⟨rs, [], none⟩) := by
  rw [contribution]
  rw [show propE (JVal.obj [("apps", a)]) "apps" = .ok a from rfl, exc_bind_ok]
  cases hn : normApps a with
  | error er => rfl
  | ok rs => rfl

/-- C7: the legacy apps shape `["./a", ...]` and the explicit shape
`{source: [...], destination: "apps"}` normalize to the same ordered
`ResourceRef` sequence, and manifests differing only in this shape (at any
position, under any role-count spec) resolve identically. -/
theorem spec_c7 (ss : List String) (pre post : List (String × JVal)) (k : String)
    (counts : String → Option Int) :
    normApps (legacyApps ss) = normApps (objApps ss) ∧
    resolveInstances (pre ++ (k, .obj [("apps", legacyApps ss)]) :: post) counts =
      resolveInstances (pre ++ (k, .obj [("apps", objApps ss)]) :: post) counts := by
  obtain ⟨h1, h2⟩ := normApps_legacy ss
  have hnorm : normApps (legacyApps ss) = normApps (objApps ss) := by rw [h1, h2]
  refine ⟨hnorm, ?_⟩
  apply resolveInstances_congr
  refine forall₂_entryEquiv_append (forall₂_entryEquiv_refl pre) ?_
  refine List.Forall₂.cons ?_ (forall₂_entryEquiv_refl post)
  refine ⟨rfl, rfl, ?_⟩
  rw [contribution_apps_only, contribution_apps_only, hnorm]

/-! ### C9: loadManifest error behavior -/

def exC9Parse : String → Option JVal :=
  fun s => if s = "X" then some (.obj [("instances", .bool false)]) else none

/-- C9 counterexample: a document that exists, parses, and has a present
(non-absent) `instances` field whose value is falsy (`false`). The claim
says a manifest-invalid error occurs exactly when the document fails to
parse or lacks a non-absent `instances` field — neither holds here — and
that otherwise the parsed manifest is returned; yet the code checks
`!manifest.instances` (truthiness, not absence) and raises the
missing-`instances` error. -/
theorem spec_c9_counterexample :
    loadManifest (some "X") exC9Parse = .error .missingInstances ∧
    exC9Parse (cleanse "X") = some (.obj [("instances", .bool false)]) :=
  ⟨rfl, rfl⟩

/-- C9 amended: the not-found error occurs exactly when the document is
absent; the invalid-JSON error exactly when the comment-stripped,
comma-stripped document fails to parse; a parsed manifest is returned
exactly when it is not `null` (a `null` document makes the validation line
itself raise a `TypeError`, a third escaping error kind) and its `instances`
property is truthy — a falsy-but-present `instances` (`false`, `0`, `""`,
`null`) raises the missing-`instances` error. -/
theorem spec_c9 (file : Option String) (parse : String → Option JVal) :
    (loadManifest file parse = .error .notFound ↔ file = none) ∧
    (∀ content, file = some content →
      (loadManifest file parse = .error .invalidJson ↔ parse (cleanse content) = none)) ∧
    (∀ content m, file = some content → parse (cleanse content) = some m →
      (loadManifest file parse = .ok m ↔
        (m ≠ .null ∧ m ≠ .undefined ∧ truthy (getProp m "instances") = true))) := by
  refine ⟨?_, ?_, ?_⟩
  · cases file with
    | none => simp [loadManifest]
    | some content =>
      simp only [loadManifest]
      cases hp : parse (cleanse content) with
      | none => simp
      | some m =>
        cases m with
        | null => simp
        | undefined => simp
        | bool b =>
          by_cases ht : truthy (getProp (JVal.bool b) "instances") <;> simp [ht]
        | num n =>
          by_cases ht : truthy (getProp (JVal.num n) "instances") <;> simp [ht]
        | str s =>
          by_cases ht : truthy (getProp (JVal.str s) "instances") <;> simp [ht]
        | arr xs =>
          by_cases ht : truthy (getProp (JVal.arr xs) "instances") <;> simp [ht]
        | obj fs =>
          by_cases ht : truthy (getProp (JVal.obj fs) "instances") <;> simp [ht]
  · intro content hfile
    subst hfile
    simp only [loadManifest]
    cases hp : parse (cleanse content) with
    | none => simp
    | some m =>
      cases m with
      | null => simp
      | undefined => simp
      | bool b =>
        by_cases ht : truthy (getProp (JVal.bool b) "instances") <;> simp [ht]
      | num n =>
        by_cases ht : truthy (getProp (JVal.num n) "instances") <;> simp [ht]
      | str s =>
        by_cases ht : truthy (getProp (JVal.str s) "instances") <;> simp [ht]
      | arr xs =>
        by_cases ht : truthy (getProp (JVal.arr xs) "instances") <;> simp [ht]
      | obj fs =>
        by_cases ht : truthy (getProp (JVal.obj fs) "instances") <;> simp [ht]
  · intro content m hfile hp
    subst hfile
    simp only [loadManifest, hp]
    cases m with
    | null => simp
    | undefined => simp
    | bool b =>
      by_cases ht : truthy (getProp (JVal.bool b) "instances") <;> simp [ht]
    | num n =>
      by_cases ht : truthy (getProp (JVal.num n) "instances") <;> simp [ht]
    | str s =>
      by_cases ht : truthy (getProp (JVal.str s) "instances") <;> simp [ht]
    | arr xs =>
      by_cases ht : truthy (getProp (JVal.arr xs) "instances") <;> simp [ht]
    | obj fs =>
      by_cases ht : truthy (getProp (JVal.obj fs) "instances") <;> simp [ht]

def exC9ParseOk : String → Option JVal :=
  fun s => if s = "Y" then some (.obj [("instances", .obj [])]) else none

/-- Witness for the amended C9: a present, parsing document with a truthy
`instances` is returned as-is. -/
theorem spec_c9_witness :
    loadManifest (some "Y") exC9ParseOk = .ok (.obj [("instances", .obj [])]) ↔
      ((JVal.obj [("instances", .obj [])]) ≠ .null ∧
       (JVal.obj [("instances", .obj [])]) ≠ .undefined ∧
       truthy (getProp (.obj [("instances", .obj [])]) "instances") = true) :=
  (spec_c9 (some "Y") exC9ParseOk).2.2 "Y" (.obj [("instances", .obj [])]) rfl rfl
